import Mathlib

/-!
Verification of the confusion-matrix engine of `mvpa/clfs/transerror.py`.

The development shallowly embeds the Python 2 code: label values are modelled
by `PyVal` (integers, strings and lists of strings -- the label domain the
source manipulates), mutable object state by explicit state passing on the
`ConfusionMatrix` structure, and raising code by `Except`/`Option` results.
-/

set_option autoImplicit false

namespace Transerror

/-- Model of the Python label values handled by the source: integers, strings
and (unhashable) lists, the latter appearing when a classifier emits a list of
predictions per sample (see the TODO above the label-union `try` block). -/
inductive PyVal where
  | int : Int → PyVal
  | str : String → PyVal
  | lst : List String → PyVal
deriving DecidableEq, Repr

/-- The Python types of the modelled values, as returned by `type(...)`. -/
inductive PyType where
  | intT : PyType
  | strT : PyType
  | lstT : PyType
deriving DecidableEq, Repr

def PyVal.pyType : PyVal → PyType
  | .int _ => .intT
  | .str _ => .strT
  | .lst _ => .lstT

/-- Whether a value can be hashed (put in a `sets.Set` / used as a `dict` key):
ints and strings are hashable, lists are not. -/
def PyVal.hashable : PyVal → Bool
  | .int _ => true
  | .str _ => true
  | .lst _ => false

/-- Python 2 exception kinds distinguished by the claims. -/
inductive PyErr where
  | valueError : PyErr
  | typeError : PyErr
deriving DecidableEq, Repr

/-- Python 2 `int(string)`: optional sign followed by decimal digits.
Returns `none` when the literal is invalid (Python raises `ValueError`). -/
def pyParseInt (s : String) : Option Int :=
  let chars := s.data
  let digits? (l : List Char) : Option Nat :=
    if l = [] then none
    else if l.all Char.isDigit then
      some (l.foldl (fun acc c => 10 * acc + (c.toNat - '0'.toNat)) 0)
    else none
  match chars with
  | '-' :: rest => (digits? rest).map (fun n => -(n : Int))
  | '+' :: rest => (digits? rest).map (fun n => (n : Int))
  | l => (digits? l).map (fun n => (n : Int))

/-- Python 2 `str(...)` of a modelled value (`repr` is used for list items). -/
def pyStr : PyVal → String
  | .int n => toString n
  | .str s => s
  | .lst xs =>
      "[" ++ String.intercalate ", " (xs.map (fun s => "'" ++ s ++ "'")) ++ "]"

/-- The coercion `t1(predictions[i])` of the per-index type enforcement in
`ConfusionMatrix.add`: apply the target's type to a prediction value.
`int(str)` raises `ValueError` on a bad literal, `int(list)` and `list(int)`
raise `TypeError`, `str(...)` always succeeds, and `list(str)` gives the list
of one-character strings. -/
def pyConvert : PyType → PyVal → Except PyErr PyVal
  | .intT, .int n => .ok (.int n)
  | .intT, .str s =>
      match pyParseInt s with
      | some n => .ok (.int n)
      | none => .error .valueError
  | .intT, .lst _ => .error .typeError
  | .strT, v => .ok (.str (pyStr v))
  | .lstT, .int _ => .error .typeError
  | .lstT, .str s => .ok (.lst (s.data.map (fun c => String.mk [c])))
  | .lstT, .lst xs => .ok (.lst xs)

/-! ### The Python 2 ordering used by `list.sort()` on the modelled values

Python 2 compares numbers before any other type and otherwise orders mixed
types by type name, so `int < list < str`; strings compare as byte sequences
and lists lexicographically. -/

/-- Lexicographic comparison of character sequences by code point. -/
def strLeAux : List Char → List Char → Bool
  | [], _ => true
  | _ :: _, [] => false
  | a :: as, b :: bs =>
      if a.toNat = b.toNat then strLeAux as bs else decide (a.toNat < b.toNat)

def strLe (a b : String) : Bool := strLeAux a.data b.data

/-- Lexicographic comparison of lists of strings. -/
def listStrLe : List String → List String → Bool
  | [], _ => true
  | _ :: _, [] => false
  | a :: as, b :: bs => if a = b then listStrLe as bs else strLe a b

/-- Rank of a type in Python 2 mixed-type comparison (numbers first, then
remaining types by type name: "list" before "str"). -/
def PyVal.rank : PyVal → Nat
  | .int _ => 0
  | .lst _ => 1
  | .str _ => 2

/-- The (total) `<=` relation `list.sort()` sorts by. -/
def pyle (a b : PyVal) : Bool :=
  match a, b with
  | .int x, .int y => decide (x ≤ y)
  | .str x, .str y => strLe x y
  | .lst x, .lst y => listStrLe x y
  | _, _ => decide (a.rank ≤ b.rank)

/-- Insertion of an element into a `pyle`-sorted list. -/
def pyInsert (a : PyVal) : List PyVal → List PyVal
  | [] => [a]
  | b :: bs => if pyle a b then a :: b :: bs else b :: pyInsert a bs

/-- The in-place `labels.sort()` of `_compute`, as insertion sort by `pyle`. -/
def pysort : List PyVal → List PyVal
  | [] => []
  | a :: as => pyInsert a (pysort as)

/-- `isSortedBy le l` checks consecutive elements, the meaning of sortedness
for the total relation `pyle`. -/
def isSortedBy (le : PyVal → PyVal → Bool) : List PyVal → Bool
  | [] => true
  | [_] => true
  | a :: b :: rest => le a b && isSortedBy le (b :: rest)

/-! ### Python sequences (list vs tuple) for the `add` coercion loop -/

/-- The caller-supplied predictions sequence: Python list or tuple.  `add`
mutates a list in place but converts a tuple to a fresh list on the first
type mismatch. -/
inductive PySeq where
  | list : List PyVal → PySeq
  | tuple : List PyVal → PySeq
deriving DecidableEq, Repr

def PySeq.toList : PySeq → List PyVal
  | .list xs => xs
  | .tuple xs => xs

def PySeq.length (s : PySeq) : Nat := s.toList.length

/-- `updAt l i f` rewrites position `i` of `l` by `f` (identity out of range):
the Python in-place assignment `l[i] = f(l[i])`. -/
def updAt {α : Type} : List α → Nat → (α → α) → List α
  | [], _, _ => []
  | x :: xs, 0, f => f x :: xs
  | x :: xs, n + 1, f => x :: updAt xs n f

def PySeq.setIdx (s : PySeq) (i : Nat) (v : PyVal) : PySeq :=
  match s with
  | .list xs => .list (updAt xs i (fun _ => v))
  | .tuple xs => .tuple (updAt xs i (fun _ => v))

def PySeq.getIdx (s : PySeq) (i : Nat) : PyVal := s.toList.getD i (.int 0)

/-- `if isinstance(predictions, tuple): predictions = list(predictions)`:
rebind a tuple to a fresh list with the same elements. -/
def detuple : PySeq → PySeq
  | .tuple xs => .list xs
  | other => other

/-! ### The `ConfusionMatrix` class

The mutable Python object becomes a record; each method takes the current
state and returns the new one.  Fields mirror the name-mangled attributes
`__labels`, `__computed`, `__sets`, `__matrix`, `__Nsamples`, `__Ncorrect`
(the last three are first assigned inside `_compute`; before that their
defaults are never read, since every accessor computes first). -/
structure ConfusionMatrix where
  labels : List PyVal
  computed : Bool
  sets : List (List PyVal × List PyVal)
  matrix : Option (List (List Nat))
  Nsamples : List Nat
  Ncorrect : Nat
deriving DecidableEq, Repr

namespace ConfusionMatrix

/-- `__init__` with no targets/predictions: `labels` defaults to the supplied
list (`[]` for `None`), no sets, not computed, no matrix yet. -/
def empty (labels : List PyVal) : ConfusionMatrix :=
  { labels := labels, computed := false, sets := [],
    matrix := none, Nsamples := [], Ncorrect := 0 }

/-- The coercion loop of `add`:
`for i in xrange(len(targets)): if type(targets[i]) != type(predictions[i]):
  if isinstance(predictions, tuple): predictions = list(predictions);
  predictions[i] = t1(predictions[i])`.
Structured as recursion over the remaining targets, carrying the index and
the current binding of `predictions` (rebound to a fresh list on the first
mismatch when it was a tuple). -/
def coerceAux : List PyVal → PySeq → Nat → Except PyErr PySeq
  | [], preds, _ => .ok preds
  | t :: ts, preds, i =>
      let p := preds.getIdx i
      if t.pyType ≠ p.pyType then
        let preds : PySeq := detuple preds
        match pyConvert t.pyType p with
        | .ok v => coerceAux ts (preds.setIdx i v) (i + 1)
        | .error e => .error e
      else
        coerceAux ts preds (i + 1)

/-- `add(targets, predictions)`: raises `ValueError` on a length mismatch,
coerces predictions to the targets' per-index types (which may itself raise),
then appends the (targets, predictions) pair and clears the computed flag.

The returned `PySeq` is the caller's own predictions object after the call:
the final coerced buffer when the caller passed a list (mutated in place),
the untouched original when the caller passed a tuple. -/
def add (s : ConfusionMatrix) (targets : List PyVal) (predictions : PySeq) :
    Except PyErr (ConfusionMatrix × PySeq) :=
  if targets.length ≠ predictions.length then .error .valueError
  else
    match coerceAux targets predictions 0 with
    | .error e => .error e
    | .ok preds =>
        .ok ({ s with sets := s.sets ++ [(targets, preds.toList)],
                      computed := false },
             match predictions with
             | .tuple xs => PySeq.tuple xs
             | .list _ => preds)

/-! #### `_compute`: label derivation -/

/-- `Set.union` step: append the elements of `l` not already present. -/
def setInsert (acc : List PyVal) (v : PyVal) : List PyVal :=
  if v ∈ acc then acc else acc ++ [v]

def setUnionL (acc : List PyVal) (l : List PyVal) : List PyVal :=
  l.foldl setInsert acc

/-- All target and prediction values of the stored sets, in order. -/
def setVals : List (List PyVal × List PyVal) → List PyVal
  | [] => []
  | yp :: rest => yp.1 ++ yp.2 ++ setVals rest

/-- Every label value occurring in the explicit list or in any stored set. -/
def allVals (labelsE : List PyVal) (sets : List (List PyVal × List PyVal)) :
    List PyVal :=
  labelsE ++ setVals sets

/-- The `reduce` of the `try` block: fold the per-set unions
`x.union(Set(y[0]).union(Set(y[1])))` over the stored sets. -/
def unionSets (acc : List PyVal) :
    List (List PyVal × List PyVal) → List PyVal
  | [] => acc
  | yp :: rest => unionSets (setUnionL (setUnionL acc yp.1) yp.2) rest

/-- The `try` block of `_compute`:
`labels = list(reduce(lambda x, y: x.union(Set(y[0]).union(Set(y[1]))),
sets, Set(self.__labels)))`.  Building a `sets.Set` raises `TypeError` as
soon as some value is unhashable; otherwise the result is the distinct
values in first-occurrence order (list order is irrelevant: the caller
sorts the result). -/
def tryUnion (labelsE : List PyVal) (sets : List (List PyVal × List PyVal)) :
    Option (List PyVal) :=
  if (allVals labelsE sets).all PyVal.hashable then
    some (unionSets (setUnionL [] labelsE) sets)
  else none

/-- Label derivation of `_compute`: the sorted union when the `try` block
succeeds, otherwise (`except:`) the explicit label list — which the
unconditional `labels.sort()` on the next source line sorts as well. -/
def derivedLabels (labelsE : List PyVal)
    (sets : List (List PyVal × List PyVal)) : List PyVal :=
  match tryUnion labelsE sets with
  | some u => pysort u
  | none => pysort labelsE

/-! #### `_compute`: matrix fill -/

/-- `rev_map = dict([(x[1], x[0]) for x in enumerate(labels)])` followed by a
lookup: duplicate labels keep the last index (later dict entries overwrite
earlier ones); looking up an unhashable value raises (`none`), as does a
missing key. -/
def lastIdxOf : List PyVal → PyVal → Option Nat
  | [], _ => none
  | a :: as, v =>
      match lastIdxOf as v with
      | some i => some (i + 1)
      | none => if a = v then some 0 else none

def revIdx (labels : List PyVal) (v : PyVal) : Option Nat :=
  if v.hashable then lastIdxOf labels v else none

def zeroMatrix (n : Nat) : List (List Nat) :=
  List.replicate n (List.replicate n 0)

/-- Matrix cell read `m[i][j]` (0 out of range, never reached in the code). -/
def entry (m : List (List Nat)) (i j : Nat) : Nat := (m.getD i []).getD j 0

/-- The increment `mat[rev_map[p], rev_map[t]] += 1`. -/
def bump (m : List (List Nat)) (i j : Nat) : List (List Nat) :=
  updAt m i (fun row => updAt row j (fun c => c + 1))

/-- The zipped (target, prediction) pairs of all stored sets in order:
`for iset, (targets, predictions) in enumerate(sets): for t, p in zip(...)`. -/
def pairsOf : List (List PyVal × List PyVal) → List (PyVal × PyVal)
  | [] => []
  | st :: rest => st.1.zip st.2 ++ pairsOf rest

/-- The fill loop: each pair increments `matrix[rev_map[p]][rev_map[t]]`;
a failing `rev_map` lookup raises (`none`).  The source accumulates one
slice per set in `mat_all` and then sums over axis 0; accumulating into a
single matrix over the concatenated pairs yields that sum directly. -/
def fillPairs (labels : List PyVal) :
    List (List Nat) → List (PyVal × PyVal) → Option (List (List Nat))
  | m, [] => some m
  | m, (t, p) :: rest =>
      match revIdx labels p, revIdx labels t with
      | some i, some j => fillPairs labels (bump m i j) rest
      | _, _ => none

/-- `N.sum(matrix, axis=0)`: per-column sums. -/
def colSums (m : List (List Nat)) : List Nat :=
  (List.range (m.getD 0 []).length).map
    (fun j => (m.map (fun row => row.getD j 0)).sum)

/-- `sum(N.diag(matrix))`. -/
def traceM (m : List (List Nat)) : Nat :=
  ((List.range m.length).map (fun i => entry m i i)).sum

/-- Sum of all matrix cells. -/
def sumAll (m : List (List Nat)) : Nat := (m.map List.sum).sum

/-- `_compute()`: returns immediately when already computed; otherwise
derives the labels, builds the reverse map (raising when a label is
unhashable) and fills the matrix (raising when a value has no index),
then stores matrix, per-column sample counts and the correct count and
sets the computed flag.  `none` models an escaping exception. -/
def compute (s : ConfusionMatrix) : Option ConfusionMatrix :=
  if s.computed then some s
  else
    let labels := derivedLabels s.labels s.sets
    if labels.all PyVal.hashable then
      match fillPairs labels (zeroMatrix labels.length) (pairsOf s.sets) with
      | none => none
      | some m =>
          some { s with labels := labels, matrix := some m,
                        Nsamples := colSums m, Ncorrect := traceM m,
                        computed := true }
    else none

end ConfusionMatrix

/-- Result of the floating-point accessors.  `nan` stands for the absence of
an ordinary numeric result on a zero denominator: numpy scalar division by
zero yields `nan` with a warning, and the fully-empty matrix (plain Python
`0`s) raises `ZeroDivisionError` — in either case no ordinary number comes
back. -/
inductive PyFloat where
  | nan : PyFloat
  | val : ℚ → PyFloat
deriving DecidableEq, Repr

namespace ConfusionMatrix

/-- Property `labels`: triggers `_compute`, returns the stored labels. -/
def labelsAcc (s : ConfusionMatrix) : Option (ConfusionMatrix × List PyVal) :=
  (compute s).map (fun s2 => (s2, s2.labels))

/-- Property `matrix`: triggers `_compute`, returns the stored matrix. -/
def matrixAcc (s : ConfusionMatrix) :
    Option (ConfusionMatrix × Option (List (List Nat))) :=
  (compute s).map (fun s2 => (s2, s2.matrix))

/-- Property `error`: triggers `_compute`, returns
`1.0 - self.__Ncorrect*1.0/sum(self.__Nsamples)`. -/
def errorAcc (s : ConfusionMatrix) : Option (ConfusionMatrix × PyFloat) :=
  (compute s).map (fun s2 =>
    (s2, if s2.Nsamples.sum = 0 then PyFloat.nan
         else PyFloat.val (1 - (s2.Ncorrect : ℚ) / (s2.Nsamples.sum : ℚ))))

/-- Property `percentCorrect`: triggers `_compute`, returns
`100.0*self.__Ncorrect/sum(self.__Nsamples)`. -/
def percentCorrectAcc (s : ConfusionMatrix) :
    Option (ConfusionMatrix × PyFloat) :=
  (compute s).map (fun s2 =>
    (s2, if s2.Nsamples.sum = 0 then PyFloat.nan
         else PyFloat.val (100 * (s2.Ncorrect : ℚ) / (s2.Nsamples.sum : ℚ))))

/-! #### The derived statistics of `_compute` (as functions of `__matrix`) -/

/-- `TP = N.diag(matrix)`. -/
def TPvec (m : List (List Nat)) : List Nat :=
  (List.range m.length).map (fun i => entry m i i)

/-- `offdiag = matrix - N.diag(TP)`: the matrix with its diagonal zeroed. -/
def offdiagE (m : List (List Nat)) (i j : Nat) : Nat :=
  if i = j then 0 else entry m i j

/-- `FP = N.sum(offdiag, axis=1)`: off-diagonal row sums. -/
def FPvec (m : List (List Nat)) : List Nat :=
  (List.range m.length).map
    (fun i => ((List.range m.length).map (fun j => offdiagE m i j)).sum)

/-- `FN = N.sum(offdiag, axis=0)`: off-diagonal column sums. -/
def FNvec (m : List (List Nat)) : List Nat :=
  (List.range m.length).map
    (fun j => ((List.range m.length).map (fun i => offdiagE m i j)).sum)

/-- `P = TP + FN` (actual positives per label). -/
def Pvec (m : List (List Nat)) : List Nat :=
  (List.range m.length).map
    (fun i => (TPvec m).getD i 0 + (FNvec m).getD i 0)

/-- `ACC = N.sum(TP)/(1.0*N.sum(P))`, the matrix-wide accuracy scalar. -/
def statACC (m : List (List Nat)) : ℚ :=
  ((TPvec m).sum : ℚ) / ((Pvec m).sum : ℚ)

/-! #### Merging -/

/-- `__iadd__`: iterate over a shallow copy of the operand's set list
(`othersets = copy.copy(other.__sets)`) and `self.add` each pair — the copy
is what makes `cm += cm` terminate, and the fold below iterates the operand's
set list as frozen at entry.  Stored predictions are list objects. -/
def iadd (self other : ConfusionMatrix) : Except PyErr ConfusionMatrix :=
  other.sets.foldlM (fun s st => (s.add st.1 (.list st.2)).map Prod.fst) self

/-- `__add__`: `result = copy.copy(self); result += other; return result`.
`copy.copy` of a `ConfusionMatrix` copies the attribute dictionary, so the
copy's `__sets` is the *same list object* as `self.__sets`; the `add` calls
append through that shared reference and `self`'s own set list grows as well.
The returned pair is (the left operand after the call, the result): both hold
the concatenated set list, while the left operand keeps its own computed
flag and cached matrix. -/
def addOp (a b : ConfusionMatrix) :
    Except PyErr (ConfusionMatrix × ConfusionMatrix) :=
  (iadd a b).map (fun c => ({ a with sets := c.sets }, c))

end ConfusionMatrix

namespace ConfusionMatrix

/-! #### Specification-side vocabulary used by the claim statements -/

/-- `m` is an `n` by `n` matrix. -/
def Dims (m : List (List Nat)) (n : Nat) : Prop :=
  m.length = n ∧ ∀ row ∈ m, row.length = n

/-- Count of pairs whose prediction resolves to row `i` and whose target
resolves to column `j` (the index form used while filling). -/
def countPairIdx (labels : List PyVal) (ps : List (PyVal × PyVal))
    (i j : Nat) : Nat :=
  ps.countP (fun tp => revIdx labels tp.2 == some i &&
                       revIdx labels tp.1 == some j)

/-- Count, across all stored sample sets, of (target, prediction) pairs with
prediction `P` and target `T` — the quantity the spec says `matrix[i][j]`
holds for `P = labels[i]`, `T = labels[j]`. -/
def pairCount (sets : List (List PyVal × List PyVal)) (P T : PyVal) : Nat :=
  (pairsOf sets).countP (fun tp => tp.2 == P && tp.1 == T)

/-- Total number of samples added (one per target across all sets). -/
def totalAdded (sets : List (List PyVal × List PyVal)) : Nat :=
  (sets.map (fun st => st.1.length)).sum

/-- Each stored set pairs equally long sequences — `add` guarantees this. -/
def wfLens (sets : List (List PyVal × List PyVal)) : Prop :=
  ∀ st ∈ sets, (st : List PyVal × List PyVal).1.length = st.2.length

/-- Each stored set moreover has per-index matching types — the coercion in
`add` establishes this for every stored set. -/
def typeAligned (sets : List (List PyVal × List PyVal)) : Prop :=
  ∀ st ∈ sets, (st : List PyVal × List PyVal).1.length = st.2.length ∧
    ∀ i, i < st.1.length →
      (st.1.getD i (.int 0)).pyType = (st.2.getD i (.int 0)).pyType

end ConfusionMatrix

/-! ### `ConfusionBasedError`

Only the pieces its `_call` touches are modelled: a classifier is a state
registry mapping state-variable names to their values (here, stored
`ConfusionMatrix` objects), and a dataset is the ordered samples/labels
container of the spec — `_call` never reads either dataset argument. -/

structure Classifier where
  states : List (String × ConfusionMatrix)
deriving DecidableEq, Repr

/-- `clf.states.getvalue(name)`. -/
def Classifier.getvalue (c : Classifier) (name : String) :
    Option ConfusionMatrix :=
  (c.states.find? (fun p => p.1 == name)).map Prod.snd

structure Dataset where
  samples : List (List Int)
  labels : List PyVal
deriving DecidableEq, Repr

structure ConfusionBasedError where
  clf : Classifier
  confusion_state : String
  confusion : Option ConfusionMatrix
deriving DecidableEq, Repr

/-- `ConfusionBasedError._call(testdata, trainingdata)`:
`confusion = self.clf.states.getvalue(self.__confusion_state);
self.confusion = confusion; return confusion.error` — neither dataset
argument is read.  The `confusion` slot is assigned the very matrix object
whose `error` accessor then computes in place, so the slot holds the
post-compute matrix state. -/
def ConfusionBasedError.call (e : ConfusionBasedError)
    (testdata : Dataset) (trainingdata : Option Dataset) :
    Option (ConfusionBasedError × PyFloat) :=
  match e.clf.getvalue e.confusion_state with
  | none => none
  | some cm =>
      (cm.errorAcc).map
        (fun r => ({ e with confusion := some r.1 }, r.2))

/-- The end-to-end example of the spec: one sample set with
targets `[1, 1, 2, 2]` and predictions `[1, 2, 2, 2]`, not yet computed
(the state `add` leaves behind on a fresh matrix). -/
def exampleCM : ConfusionMatrix :=
  { labels := [], computed := false,
    sets := [([.int 1, .int 1, .int 2, .int 2],
              [.int 1, .int 2, .int 2, .int 2])],
    matrix := none, Nsamples := [], Ncorrect := 0 }

/-- The state `_compute` leaves behind on `exampleCM`: labels `[1, 2]`,
matrix `[[1, 0], [1, 2]]`, per-column sample counts `[2, 2]`, 3 correct. -/
def exampleCM2 : ConfusionMatrix :=
  { labels := [.int 1, .int 2], computed := true,
    sets := [([.int 1, .int 1, .int 2, .int 2],
              [.int 1, .int 2, .int 2, .int 2])],
    matrix := some [[1, 0], [1, 2]], Nsamples := [2, 2], Ncorrect := 3 }

/-- State after `add(targets=[1], predictions=[2])` on a fresh matrix. -/
def exampleAdd1 : ConfusionMatrix :=
  { labels := [], computed := false, sets := [([.int 1], [.int 2])],
    matrix := none, Nsamples := [], Ncorrect := 0 }

/-- State after `add(targets=[1, "a"], predictions=["5", "b"])` on a fresh
matrix: the first prediction was coerced to `int("5") = 5` in place. -/
def exampleAdd2 : ConfusionMatrix :=
  { labels := [], computed := false,
    sets := [([.int 1, .str "a"], [.int 5, .str "b"])],
    matrix := none, Nsamples := [], Ncorrect := 0 }

/-- A matrix whose sample set holds an unhashable prediction value while
explicit labels `[2, 1]` were supplied out of order — the label-union
`try` block fails on it. -/
def exampleBadCM : ConfusionMatrix :=
  { labels := [.int 2, .int 1], computed := false,
    sets := [([.int 1], [.lst []])],
    matrix := none, Nsamples := [], Ncorrect := 0 }

/-- The state `_compute` leaves behind on an empty `ConfusionMatrix`:
a 0-by-0 matrix and a total sample count of zero. -/
def emptyComputed : ConfusionMatrix :=
  { labels := [], computed := true, sets := [],
    matrix := some [], Nsamples := [], Ncorrect := 0 }

/-- A matrix with two samples, one misclassified: its `error` is `1/2`. -/
def exampleErrCM : ConfusionMatrix :=
  { labels := [], computed := false,
    sets := [([.int 1, .int 2], [.int 1, .int 1])],
    matrix := none, Nsamples := [], Ncorrect := 0 }

/-- `exampleErrCM` after its `error` accessor computed it in place. -/
def exampleErrCM2 : ConfusionMatrix :=
  { labels := [.int 1, .int 2], computed := true,
    sets := [([.int 1, .int 2], [.int 1, .int 1])],
    matrix := some [[1, 1], [0, 0]], Nsamples := [1, 1], Ncorrect := 1 }

/-- A classifier whose `training_confusion` state slot holds
`exampleErrCM`. -/
def exampleClf : Classifier := ⟨[("training_confusion", exampleErrCM)]⟩

def exampleCBE : ConfusionBasedError :=
  ⟨exampleClf, "training_confusion", none⟩

def exampleDS1 : Dataset := ⟨[], []⟩

def exampleDS2 : Dataset := ⟨[[1]], [.int 1]⟩

/-- Left operand for the `a + b` frame-effect check: one stored set. -/
def exampleA : ConfusionMatrix :=
  { labels := [], computed := false, sets := [([.int 1], [.int 1])],
    matrix := none, Nsamples := [], Ncorrect := 0 }

/-- Right operand for the `a + b` frame-effect check: one stored set. -/
def exampleB : ConfusionMatrix :=
  { labels := [], computed := false, sets := [([.int 2], [.int 2])],
    matrix := none, Nsamples := [], Ncorrect := 0 }

/-! ## Lemmas about the embedding -/

section UpdAtLemmas

variable {α : Type}

theorem updAt_length (l : List α) (i : Nat) (f : α → α) :
    (updAt l i f).length = l.length := by
  induction l generalizing i with
  | nil => rfl
  | cons x xs ih =>
      cases i with
      | zero => rfl
      | succ n => simpa [updAt] using ih n

theorem updAt_oob (l : List α) (i : Nat) (f : α → α) (h : l.length ≤ i) :
    updAt l i f = l := by
  induction l generalizing i with
  | nil => rfl
  | cons x xs ih =>
      cases i with
      | zero => exact absurd h (by simp)
      | succ n => simp [updAt, ih n (by simpa using h)]

theorem updAt_getD_same (l : List α) (i : Nat) (f : α → α) (d : α)
    (h : i < l.length) : (updAt l i f).getD i d = f (l.getD i d) := by
  induction l generalizing i with
  | nil => simp at h
  | cons x xs ih =>
      cases i with
      | zero => rfl
      | succ n => simpa [updAt] using ih n (by simpa using h)

theorem updAt_getD_ne (l : List α) (i k : Nat) (f : α → α) (d : α)
    (h : i ≠ k) : (updAt l i f).getD k d = l.getD k d := by
  induction l generalizing i k with
  | nil => rfl
  | cons x xs ih =>
      cases i with
      | zero =>
          cases k with
          | zero => exact absurd rfl h
          | succ n => rfl
      | succ n =>
          cases k with
          | zero => rfl
          | succ m => simpa [updAt] using ih n m (by omega)

theorem updAt_mem (l : List α) (i : Nat) (f : α → α) (x : α)
    (hx : x ∈ updAt l i f) : x ∈ l ∨ ∃ y ∈ l, x = f y := by
  induction l generalizing i with
  | nil => simp [updAt] at hx
  | cons a as ih =>
      cases i with
      | zero =>
          rcases (by simpa [updAt] using hx : x = f a ∨ x ∈ as) with h | h
          · exact Or.inr ⟨a, by simp, h⟩
          · exact Or.inl (by simp [h])
      | succ n =>
          rcases (by simpa [updAt] using hx : x = a ∨ x ∈ updAt as n f) with
            h | h
          · exact Or.inl (by simp [h])
          · rcases ih n h with h2 | ⟨y, hy, hxy⟩
            · exact Or.inl (by simp [h2])
            · exact Or.inr ⟨y, by simp [hy], hxy⟩

theorem updAt_sum_succ (l : List Nat) (i : Nat) (h : i < l.length) :
    (updAt l i (fun c => c + 1)).sum = l.sum + 1 := by
  induction l generalizing i with
  | nil => simp at h
  | cons x xs ih =>
      cases i with
      | zero => simp [updAt]; omega
      | succ n =>
          have := ih n (by simpa using h)
          simp [updAt, this]; omega

end UpdAtLemmas

namespace ConfusionMatrix

theorem Dims.bump {m : List (List Nat)} {n : Nat} (hm : Dims m n)
    (i j : Nat) : Dims (bump m i j) n := by
  obtain ⟨hlen, hrow⟩ := hm
  refine ⟨by simpa [ConfusionMatrix.bump, updAt_length] using hlen, ?_⟩
  intro row hrowmem
  rcases updAt_mem _ _ _ _ hrowmem with h | ⟨y, hy, hxy⟩
  · exact hrow _ h
  · subst hxy
    simpa [updAt_length] using hrow _ hy

theorem getD_mem {β : Type} (l : List β) (i : Nat) (d : β)
    (h : i < l.length) : l.getD i d ∈ l := by
  rw [List.getD_eq_getElem l d h]
  exact List.getElem_mem h

theorem entry_bump {m : List (List Nat)} {n : Nat} (hm : Dims m n)
    {i0 j0 : Nat} (hi0 : i0 < n) (hj0 : j0 < n) (i j : Nat) :
    entry (bump m i0 j0) i j =
      if i0 = i ∧ j0 = j then entry m i j + 1 else entry m i j := by
  obtain ⟨hlen, hrow⟩ := hm
  by_cases hii : i0 = i
  · subst hii
    have hrowlen : (m.getD i0 []).length = n :=
      hrow _ (getD_mem m i0 [] (hlen ▸ hi0))
    by_cases hjj : j0 = j
    · subst hjj
      simp only [entry, ConfusionMatrix.bump]
      rw [updAt_getD_same m i0 _ [] (hlen ▸ hi0),
          updAt_getD_same _ j0 _ 0 (hrowlen ▸ hj0)]
      simp
    · simp only [entry, ConfusionMatrix.bump]
      rw [updAt_getD_same m i0 _ [] (hlen ▸ hi0),
          updAt_getD_ne _ j0 j _ 0 hjj]
      simp [hjj]
  · simp only [entry, ConfusionMatrix.bump]
    rw [updAt_getD_ne m i0 i _ [] hii]
    simp [hii]

theorem sumAll_bump_aux (m : List (List Nat)) (i j : Nat)
    (hi : i < m.length) (hjrow : ∀ row ∈ m, j < row.length) :
    sumAll (bump m i j) = sumAll m + 1 := by
  induction m generalizing i with
  | nil => simp at hi
  | cons row rest ih =>
      cases i with
      | zero =>
          simp only [sumAll, ConfusionMatrix.bump, updAt, List.map_cons,
            List.sum_cons]
          rw [updAt_sum_succ row j (hjrow row (by simp))]
          omega
      | succ k =>
          have := ih k (by simpa using hi) (fun r hr => hjrow r (by simp [hr]))
          simp only [sumAll, ConfusionMatrix.bump, updAt, List.map_cons,
            List.sum_cons] at this ⊢
          omega

theorem sumAll_bump {m : List (List Nat)} {n : Nat} (hm : Dims m n)
    {i j : Nat} (hi : i < n) (hj : j < n) :
    sumAll (bump m i j) = sumAll m + 1 := by
  obtain ⟨hlen, hrow⟩ := hm
  exact sumAll_bump_aux m i j (hlen ▸ hi)
    (fun row hrm => (hrow row hrm) ▸ hj)

theorem lastIdxOf_lt {l : List PyVal} {v : PyVal} {i : Nat}
    (h : lastIdxOf l v = some i) : i < l.length := by
  induction l generalizing i with
  | nil => simp [lastIdxOf] at h
  | cons a as ih =>
      simp only [lastIdxOf] at h
      cases hrec : lastIdxOf as v with
      | some k =>
          rw [hrec] at h
          cases h
          have := ih hrec
          simpa using this
      | none =>
          rw [hrec] at h
          by_cases hav : a = v
          · simp [hav] at h; subst h; simp
          · simp [hav] at h

theorem lastIdxOf_getD {l : List PyVal} {v : PyVal} {i : Nat} (d : PyVal)
    (h : lastIdxOf l v = some i) : l.getD i d = v := by
  induction l generalizing i with
  | nil => simp [lastIdxOf] at h
  | cons a as ih =>
      simp only [lastIdxOf] at h
      cases hrec : lastIdxOf as v with
      | some k =>
          rw [hrec] at h
          cases h
          simpa using ih hrec
      | none =>
          rw [hrec] at h
          by_cases hav : a = v
          · simp [hav] at h; subst h; simpa using hav
          · simp [hav] at h

theorem lastIdxOf_isSome_iff {l : List PyVal} {v : PyVal} :
    (lastIdxOf l v).isSome = true ↔ v ∈ l := by
  induction l with
  | nil => simp [lastIdxOf]
  | cons a as ih =>
      simp only [lastIdxOf, List.mem_cons]
      cases hrec : lastIdxOf as v with
      | some k =>
          have : v ∈ as := by rw [← ih, hrec]; rfl
          simp [this]
      | none =>
          have hnotmem : v ∉ as := by
            intro hmem
            have := ih.mpr hmem
            rw [hrec] at this
            cases this
          by_cases hav : a = v
          · simp [hav]
          · simp only [hav, if_false, Option.isSome_none]
            constructor
            · intro h; cases h
            · rintro (h | h)
              · exact absurd h.symm hav
              · exact absurd h hnotmem

theorem lastIdxOf_of_nodup_getD {l : List PyVal} (hnd : l.Nodup)
    {v : PyVal} {i : Nat} (hi : i < l.length)
    (hv : l.getD i (.int 0) = v) : lastIdxOf l v = some i := by
  have hmem : v ∈ l := hv ▸ getD_mem l i (.int 0) hi
  cases hidx : lastIdxOf l v with
  | none =>
      exfalso
      have := lastIdxOf_isSome_iff.mpr hmem
      rw [hidx] at this
      simp at this
  | some k =>
      have hk : k < l.length := lastIdxOf_lt hidx
      have hkv : l.getD k (.int 0) = v := lastIdxOf_getD _ hidx
      have : k = i := by
        have h1 : l[k] = l[i] := by
          rw [← List.getD_eq_getElem l (.int 0) hk,
            ← List.getD_eq_getElem l (.int 0) hi, hkv, hv]
        exact (List.Nodup.getElem_inj_iff hnd).mp h1
      rw [this]

theorem revIdx_lt {labels : List PyVal} {v : PyVal} {i : Nat}
    (h : revIdx labels v = some i) : i < labels.length := by
  by_cases hv : v.hashable
  · simp [revIdx, hv] at h
    exact lastIdxOf_lt h
  · simp [revIdx, hv] at h

theorem revIdx_getD {labels : List PyVal} {v : PyVal} {i : Nat}
    (h : revIdx labels v = some i) : labels.getD i (.int 0) = v := by
  by_cases hv : v.hashable
  · simp [revIdx, hv] at h
    exact lastIdxOf_getD _ h
  · simp [revIdx, hv] at h

theorem revIdx_isSome {labels : List PyVal} {v : PyVal}
    (hv : v.hashable = true) (hmem : v ∈ labels) :
    (revIdx labels v).isSome = true := by
  simp [revIdx, hv]
  exact lastIdxOf_isSome_iff.mpr hmem

theorem revIdx_of_nodup {labels : List PyVal} (hnd : labels.Nodup)
    {v : PyVal} (hv : v.hashable = true) {i : Nat} (hi : i < labels.length)
    (heq : labels.getD i (.int 0) = v) : revIdx labels v = some i := by
  simp [revIdx, hv]
  exact lastIdxOf_of_nodup_getD hnd hi heq

/-! #### Fill-loop characterization -/

theorem fillPairs_isSome_iff (labels : List PyVal) (m : List (List Nat))
    (ps : List (PyVal × PyVal)) :
    (fillPairs labels m ps).isSome = true ↔
      ∀ tp ∈ ps, (revIdx labels tp.2).isSome = true ∧
                 (revIdx labels tp.1).isSome = true := by
  induction ps generalizing m with
  | nil => simp [fillPairs]
  | cons tp rest ih =>
      obtain ⟨t, p⟩ := tp
      simp only [fillPairs]
      cases hp : revIdx labels p with
      | none =>
          simp only [Option.isSome_none]
          constructor
          · intro h; cases h
          · intro h
            have := (h (t, p) (by simp)).1
            rw [hp] at this
            cases this
      | some i =>
          cases ht : revIdx labels t with
          | none =>
              simp only [Option.isSome_none]
              constructor
              · intro h; cases h
              · intro h
                have := (h (t, p) (by simp)).2
                rw [ht] at this
                cases this
          | some j =>
              rw [ih (bump m i j)]
              constructor
              · intro h tp2 htp2
                rcases List.mem_cons.mp htp2 with heq | hmem
                · subst heq; simp [hp, ht]
                · exact h tp2 hmem
              · intro h tp2 htp2
                exact h tp2 (by simp [htp2])

theorem fillPairs_dims {labels : List PyVal} {m m' : List (List Nat)}
    {ps : List (PyVal × PyVal)} {n : Nat}
    (hfill : fillPairs labels m ps = some m') (hm : Dims m n) :
    Dims m' n := by
  induction ps generalizing m with
  | nil => simp [fillPairs] at hfill; subst hfill; exact hm
  | cons tp rest ih =>
      obtain ⟨t, p⟩ := tp
      simp only [fillPairs] at hfill
      cases hp : revIdx labels p with
      | none => rw [hp] at hfill; cases hfill
      | some i =>
          cases ht : revIdx labels t with
          | none => rw [hp, ht] at hfill; cases hfill
          | some j =>
              rw [hp, ht] at hfill
              exact ih hfill (hm.bump i j)

theorem fillPairs_entry {labels : List PyVal} {m m' : List (List Nat)}
    {ps : List (PyVal × PyVal)}
    (hfill : fillPairs labels m ps = some m') (hm : Dims m labels.length)
    (i j : Nat) :
    entry m' i j = entry m i j + countPairIdx labels ps i j := by
  induction ps generalizing m with
  | nil =>
      simp [fillPairs] at hfill
      subst hfill
      simp [countPairIdx]
  | cons tp rest ih =>
      obtain ⟨t, p⟩ := tp
      simp only [fillPairs] at hfill
      cases hp : revIdx labels p with
      | none => rw [hp] at hfill; cases hfill
      | some i0 =>
          cases ht : revIdx labels t with
          | none => rw [hp, ht] at hfill; cases hfill
          | some j0 =>
              rw [hp, ht] at hfill
              have hrec := ih hfill (hm.bump i0 j0)
              rw [hrec,
                entry_bump hm (revIdx_lt hp) (revIdx_lt ht) i j]
              simp only [countPairIdx, List.countP_cons]
              by_cases hij : i0 = i ∧ j0 = j
              · obtain ⟨h1, h2⟩ := hij
                subst h1; subst h2
                simp [hp, ht]
                omega
              · have : ¬(revIdx labels p == some i &&
                    revIdx labels t == some j) = true := by
                  simp only [hp, ht, Bool.and_eq_true, beq_iff_eq]
                  intro hcon
                  exact hij ⟨(Option.some.injEq _ _ ▸ hcon.1 : i0 = i),
                    (Option.some.injEq _ _ ▸ hcon.2 : j0 = j)⟩
                simp only [hij, if_false]
                rw [if_neg this]
                omega

theorem fillPairs_sumAll {labels : List PyVal} {m m' : List (List Nat)}
    {ps : List (PyVal × PyVal)}
    (hfill : fillPairs labels m ps = some m') (hm : Dims m labels.length) :
    sumAll m' = sumAll m + ps.length := by
  induction ps generalizing m with
  | nil => simp [fillPairs] at hfill; subst hfill; simp
  | cons tp rest ih =>
      obtain ⟨t, p⟩ := tp
      simp only [fillPairs] at hfill
      cases hp : revIdx labels p with
      | none => rw [hp] at hfill; cases hfill
      | some i0 =>
          cases ht : revIdx labels t with
          | none => rw [hp, ht] at hfill; cases hfill
          | some j0 =>
              rw [hp, ht] at hfill
              have hrec := ih hfill (hm.bump i0 j0)
              rw [hrec, sumAll_bump hm (revIdx_lt hp) (revIdx_lt ht)]
              simp
              omega

theorem zeroMatrix_dims (n : Nat) : Dims (zeroMatrix n) n := by
  constructor
  · simp [zeroMatrix]
  · intro row hrow
    have := List.eq_of_mem_replicate hrow
    simp [this]

theorem entry_zeroMatrix (n i j : Nat) : entry (zeroMatrix n) i j = 0 := by
  simp only [entry, zeroMatrix]
  by_cases hi : i < n
  · have hrow : (List.replicate n (List.replicate n (0 : Nat))).getD i [] =
        List.replicate n 0 := by
      rw [List.getD_eq_getElem _ _ (by simpa using hi)]
      rw [List.getElem_replicate]
    rw [hrow]
    by_cases hj : j < n
    · rw [List.getD_eq_getElem _ _ (by simpa using hj)]
      rw [List.getElem_replicate]
    · exact List.getD_eq_default _ _ (by simpa using hj)
  · have hout : (List.replicate n (List.replicate n (0 : Nat))).getD i [] =
        ([] : List Nat) :=
      List.getD_eq_default _ _ (by simpa using hi)
    rw [hout]
    rfl

theorem sumAll_zeroMatrix (n : Nat) : sumAll (zeroMatrix n) = 0 := by
  simp [sumAll, zeroMatrix]

/-! #### The set union of the label derivation -/

theorem mem_setInsert {acc : List PyVal} {v x : PyVal} :
    x ∈ setInsert acc v ↔ x ∈ acc ∨ x = v := by
  by_cases hv : v ∈ acc
  · simp only [setInsert, if_pos hv]
    constructor
    · exact Or.inl
    · rintro (h | h)
      · exact h
      · exact h ▸ hv
  · simp [setInsert, if_neg hv]

theorem setInsert_nodup {acc : List PyVal} (h : acc.Nodup) (v : PyVal) :
    (setInsert acc v).Nodup := by
  by_cases hv : v ∈ acc
  · simpa [setInsert, if_pos hv] using h
  · simp only [setInsert, if_neg hv]
    simpa [List.nodup_append] using ⟨h, fun hvacc => hv hvacc⟩

theorem setInsert_noop {acc : List PyVal} {v : PyVal} (h : v ∈ acc) :
    setInsert acc v = acc := by
  simp [setInsert, if_pos h]

theorem mem_setUnionL {acc l : List PyVal} {x : PyVal} :
    x ∈ setUnionL acc l ↔ x ∈ acc ∨ x ∈ l := by
  induction l generalizing acc with
  | nil => simp [setUnionL]
  | cons a as ih =>
      simp only [setUnionL, List.foldl_cons, List.mem_cons]
      rw [show List.foldl setInsert (setInsert acc a) as =
        setUnionL (setInsert acc a) as from rfl, ih, mem_setInsert]
      tauto

theorem setUnionL_nodup {acc : List PyVal} (h : acc.Nodup)
    (l : List PyVal) : (setUnionL acc l).Nodup := by
  induction l generalizing acc with
  | nil => exact h
  | cons a as ih => exact ih (setInsert_nodup h a)

theorem setUnionL_noop {acc l : List PyVal} (h : ∀ x ∈ l, x ∈ acc) :
    setUnionL acc l = acc := by
  induction l with
  | nil => rfl
  | cons a as ih =>
      have ha : a ∈ acc := h a (by simp)
      show setUnionL (setInsert acc a) as = acc
      rw [setInsert_noop ha]
      exact ih (fun x hx => h x (by simp [hx]))

theorem setUnionL_append_nodup {acc l : List PyVal} (hnd : l.Nodup)
    (hdisj : ∀ x ∈ l, x ∉ acc) : setUnionL acc l = acc ++ l := by
  induction l generalizing acc with
  | nil => simp [setUnionL]
  | cons a as ih =>
      have ha : a ∉ acc := hdisj a (by simp)
      show setUnionL (setInsert acc a) as = acc ++ a :: as
      rw [show setInsert acc a = acc ++ [a] from by simp [setInsert, ha]]
      rw [ih (List.Nodup.of_cons hnd) ?hd]
      · simp
      case hd =>
        intro x hx
        simp only [List.mem_append, List.mem_singleton]
        rintro (hacc | hxa)
        · exact hdisj x (by simp [hx]) hacc
        · subst hxa
          exact (List.nodup_cons.mp hnd).1 hx

theorem mem_unionSets {acc : List PyVal}
    {sets : List (List PyVal × List PyVal)} {x : PyVal} :
    x ∈ unionSets acc sets ↔ x ∈ acc ∨ x ∈ setVals sets := by
  induction sets generalizing acc with
  | nil => simp [unionSets, setVals]
  | cons yp rest ih =>
      simp only [unionSets, setVals, List.mem_append]
      rw [ih, mem_setUnionL, mem_setUnionL]
      tauto

theorem unionSets_nodup {acc : List PyVal} (h : acc.Nodup)
    (sets : List (List PyVal × List PyVal)) : (unionSets acc sets).Nodup := by
  induction sets generalizing acc with
  | nil => exact h
  | cons yp rest ih =>
      exact ih (setUnionL_nodup (setUnionL_nodup h yp.1) yp.2)

theorem unionSets_noop {acc : List PyVal}
    {sets : List (List PyVal × List PyVal)}
    (h : ∀ x ∈ setVals sets, x ∈ acc) : unionSets acc sets = acc := by
  induction sets with
  | nil => rfl
  | cons yp rest ih =>
      show unionSets (setUnionL (setUnionL acc yp.1) yp.2) rest = acc
      rw [setUnionL_noop (fun x hx => h x (by simp [setVals, hx])),
        setUnionL_noop (fun x hx => h x (by simp [setVals, hx]))]
      exact ih (fun x hx => h x (by simp [setVals, hx]))

theorem unionSets_append (acc : List PyVal)
    (s1 s2 : List (List PyVal × List PyVal)) :
    unionSets acc (s1 ++ s2) = unionSets (unionSets acc s1) s2 := by
  induction s1 generalizing acc with
  | nil => rfl
  | cons yp rest ih => simpa [unionSets] using ih _

/-! #### Totality of the Python ordering, and the sort -/

theorem strLeAux_total (l1 l2 : List Char) :
    strLeAux l1 l2 = true ∨ strLeAux l2 l1 = true := by
  induction l1 generalizing l2 with
  | nil => exact Or.inl rfl
  | cons a as ih =>
      cases l2 with
      | nil => exact Or.inr rfl
      | cons b bs =>
          simp only [strLeAux]
          by_cases hab : a.toNat = b.toNat
          · simp only [hab, if_pos rfl, if_true]
            have := hab ▸ (rfl : b.toNat = b.toNat)
            simpa [hab] using ih bs
          · have hba : b.toNat ≠ a.toNat := fun h => hab h.symm
            simp only [if_neg hab, if_neg hba, decide_eq_true_eq]
            omega

theorem strLe_total (a b : String) : strLe a b = true ∨ strLe b a = true :=
  strLeAux_total a.data b.data

theorem listStrLe_total (l1 l2 : List String) :
    listStrLe l1 l2 = true ∨ listStrLe l2 l1 = true := by
  induction l1 generalizing l2 with
  | nil => exact Or.inl rfl
  | cons a as ih =>
      cases l2 with
      | nil => exact Or.inr rfl
      | cons b bs =>
          simp only [listStrLe]
          by_cases hab : a = b
          · subst hab
            simpa using ih bs
          · have hba : b ≠ a := fun h => hab h.symm
            simp only [if_neg hab, if_neg hba]
            exact strLe_total a b

theorem pyle_total (a b : PyVal) : pyle a b = true ∨ pyle b a = true := by
  cases a with
  | int x =>
      cases b with
      | int y => simpa [pyle] using Int.le_total x y
      | str y => simp [pyle, PyVal.rank]
      | lst y => simp [pyle, PyVal.rank]
  | str x =>
      cases b with
      | int y => simp [pyle, PyVal.rank]
      | str y => simpa [pyle] using strLe_total x y
      | lst y => simp [pyle, PyVal.rank]
  | lst x =>
      cases b with
      | int y => simp [pyle, PyVal.rank]
      | str y => simp [pyle, PyVal.rank]
      | lst y => simpa [pyle] using listStrLe_total x y

theorem pyInsert_perm (a : PyVal) (l : List PyVal) :
    (pyInsert a l).Perm (a :: l) := by
  induction l with
  | nil => simp [pyInsert]
  | cons b bs ih =>
      by_cases hab : pyle a b = true
      · simp [pyInsert, hab]
      · simp only [pyInsert, if_neg hab]
        exact (List.Perm.cons b ih).trans (List.Perm.swap a b bs)

theorem pysort_perm (l : List PyVal) : (pysort l).Perm l := by
  induction l with
  | nil => simp [pysort]
  | cons a as ih =>
      exact ((pyInsert_perm a (pysort as)).trans (List.Perm.cons a ih))

theorem mem_pysort {l : List PyVal} {x : PyVal} :
    x ∈ pysort l ↔ x ∈ l :=
  (pysort_perm l).mem_iff

theorem pysort_nodup {l : List PyVal} (h : l.Nodup) : (pysort l).Nodup :=
  (pysort_perm l).nodup_iff.mpr h

theorem isSortedBy_cons {le : PyVal → PyVal → Bool} {a : PyVal}
    {l : List PyVal} :
    isSortedBy le (a :: l) = true ↔
      (∀ b, l.head? = some b → le a b = true) ∧ isSortedBy le l = true := by
  cases l with
  | nil => simp [isSortedBy]
  | cons b bs =>
      simp only [isSortedBy, Bool.and_eq_true, List.head?]
      constructor
      · rintro ⟨h1, h2⟩
        exact ⟨fun c hc => by cases hc; exact h1, h2⟩
      · rintro ⟨h1, h2⟩
        exact ⟨h1 b rfl, h2⟩

theorem pyInsert_head? (a : PyVal) (l : List PyVal) :
    (pyInsert a l).head? = some a ∨ (pyInsert a l).head? = l.head? := by
  cases l with
  | nil => exact Or.inl rfl
  | cons b bs =>
      by_cases hab : pyle a b = true
      · left; simp [pyInsert, hab]
      · right; simp [pyInsert, hab]

theorem sorted_pyInsert {a : PyVal} {l : List PyVal}
    (h : isSortedBy pyle l = true) :
    isSortedBy pyle (pyInsert a l) = true := by
  induction l with
  | nil => simp [pyInsert, isSortedBy]
  | cons b bs ih =>
      rw [isSortedBy_cons] at h
      obtain ⟨hhead, htail⟩ := h
      by_cases hab : pyle a b = true
      · rw [show pyInsert a (b :: bs) = a :: b :: bs from by
          simp [pyInsert, hab]]
        rw [isSortedBy_cons]
        refine ⟨fun c hc => ?_, ?_⟩
        · rw [List.head?_cons] at hc; cases hc; exact hab
        · rw [isSortedBy_cons]; exact ⟨hhead, htail⟩
      · rw [show pyInsert a (b :: bs) = b :: pyInsert a bs from by
          simp [pyInsert, hab]]
        rw [isSortedBy_cons]
        refine ⟨fun c hc => ?_, ih htail⟩
        rcases pyInsert_head? a bs with hh | hh
        · rw [hh] at hc
          cases hc
          rcases pyle_total a b with hcon | hba
          · exact absurd hcon hab
          · exact hba
        · rw [hh] at hc
          exact hhead c hc

theorem sorted_pysort (l : List PyVal) : isSortedBy pyle (pysort l) = true := by
  induction l with
  | nil => rfl
  | cons a as ih => exact sorted_pyInsert ih

theorem pyInsert_of_le {a : PyVal} {l : List PyVal}
    (h : ∀ b, l.head? = some b → pyle a b = true) :
    pyInsert a l = a :: l := by
  cases l with
  | nil => rfl
  | cons b bs => simp [pyInsert, h b rfl]

theorem pysort_of_sorted {l : List PyVal}
    (h : isSortedBy pyle l = true) : pysort l = l := by
  induction l with
  | nil => rfl
  | cons a as ih =>
      rw [isSortedBy_cons] at h
      obtain ⟨hhead, htail⟩ := h
      show pyInsert a (pysort as) = a :: as
      rw [ih htail]
      exact pyInsert_of_le hhead

end ConfusionMatrix

/-! #### Generic summation bookkeeping -/

theorem mapSum_add {ι : Type} (l : List ι) (f g : ι → Nat) :
    (l.map (fun x => f x + g x)).sum = (l.map f).sum + (l.map g).sum := by
  induction l with
  | nil => rfl
  | cons a as ih => simp [ih]; omega

theorem mapSum_zero {ι : Type} (l : List ι) :
    (l.map (fun _ => (0 : Nat))).sum = 0 := by
  simp

theorem mapSum_swap {ι κ : Type} (l1 : List ι) (l2 : List κ)
    (f : ι → κ → Nat) :
    (l1.map (fun x => (l2.map (fun y => f x y)).sum)).sum =
      (l2.map (fun y => (l1.map (fun x => f x y)).sum)).sum := by
  induction l1 with
  | nil => simp
  | cons a as ih =>
      simp only [List.map_cons, List.sum_cons, ih]
      rw [← mapSum_add]

theorem mapSum_indicator {i n c : Nat} (h : i < n) :
    ((List.range n).map (fun j => if i = j then c else 0)).sum = c := by
  induction n with
  | zero => omega
  | succ k ih =>
      rw [List.range_succ, List.map_append, List.sum_append]
      by_cases hik : i = k
      · subst hik
        have : ((List.range i).map (fun j => if i = j then c else 0)).sum
            = 0 := by
          rw [← mapSum_zero (List.range i)]
          apply congrArg
          apply List.map_congr_left
          intro j hj
          have : j < i := List.mem_range.mp hj
          simp; omega
        simp [this]
      · have hlt : i < k := by omega
        rw [ih hlt]
        simp [hik]

theorem getD_map_range {α : Type} (f : Nat → α) {n i : Nat} (d : α)
    (h : i < n) : ((List.range n).map f).getD i d = f i := by
  rw [List.getD_eq_getElem _ _ (by simpa using h)]
  simp

theorem list_enum_getD {α : Type} (l : List α) (g : α → Nat) (d : α) :
    ((List.range l.length).map (fun i => g (l.getD i d))).sum =
      (l.map g).sum := by
  induction l with
  | nil => rfl
  | cons a as ih =>
      rw [List.length_cons, List.range_succ_eq_map, List.map_cons,
        List.map_map]
      simp only [List.sum_cons, List.getD_cons_zero]
      have : ((List.range as.length).map
          ((fun i => g ((a :: as).getD i d)) ∘ Nat.succ)) =
          (List.range as.length).map (fun i => g (as.getD i d)) := by
        apply List.map_congr_left
        intro j hj
        rfl
      rw [this, ih]
      simp

namespace ConfusionMatrix

/-! #### Unfolding `compute` -/

theorem compute_of_computed {s : ConfusionMatrix} (h : s.computed = true) :
    compute s = some s := by
  simp [compute, h]

theorem compute_eq_some {s : ConfusionMatrix} (hc : s.computed = false)
    (hh : (derivedLabels s.labels s.sets).all PyVal.hashable = true)
    {m : List (List Nat)}
    (hfill : fillPairs (derivedLabels s.labels s.sets)
      (zeroMatrix (derivedLabels s.labels s.sets).length)
      (pairsOf s.sets) = some m) :
    compute s = some { s with labels := derivedLabels s.labels s.sets,
                              matrix := some m,
                              Nsamples := colSums m, Ncorrect := traceM m,
                              computed := true } := by
  simp [compute, hc, hh, hfill]

theorem compute_elim {s s' : ConfusionMatrix} (hc : s.computed = false)
    (h : compute s = some s') :
    (derivedLabels s.labels s.sets).all PyVal.hashable = true ∧
    ∃ m, fillPairs (derivedLabels s.labels s.sets)
        (zeroMatrix (derivedLabels s.labels s.sets).length)
        (pairsOf s.sets) = some m ∧
      s' = { s with labels := derivedLabels s.labels s.sets,
                    matrix := some m,
                    Nsamples := colSums m, Ncorrect := traceM m,
                    computed := true } := by
  simp only [compute, hc, Bool.false_eq_true, if_false] at h
  by_cases hh : (derivedLabels s.labels s.sets).all PyVal.hashable = true
  · refine ⟨hh, ?_⟩
    rw [if_pos hh] at h
    cases hfill : fillPairs (derivedLabels s.labels s.sets)
        (zeroMatrix (derivedLabels s.labels s.sets).length)
        (pairsOf s.sets) with
    | none => rw [hfill] at h; cases h
    | some m =>
        rw [hfill] at h
        cases h
        exact ⟨m, rfl, rfl⟩
  · rw [if_neg hh] at h
    cases h

theorem compute_computed {s s' : ConfusionMatrix}
    (h : compute s = some s') : s'.computed = true := by
  cases hc : s.computed with
  | true =>
      rw [compute_of_computed hc] at h
      cases h
      exact hc
  | false =>
      obtain ⟨_, m, _, hs'⟩ := compute_elim hc h
      rw [hs']

theorem compute_idem {s s' : ConfusionMatrix}
    (h : compute s = some s') : compute s' = some s' :=
  compute_of_computed (compute_computed h)

theorem compute_sets {s s' : ConfusionMatrix}
    (h : compute s = some s') : s'.sets = s.sets := by
  cases hc : s.computed with
  | true =>
      rw [compute_of_computed hc] at h
      cases h
      rfl
  | false =>
      obtain ⟨_, m, _, hs'⟩ := compute_elim hc h
      rw [hs']

/-! #### Label derivation facts -/

theorem derivedLabels_of_hashable {labelsE : List PyVal}
    {sets : List (List PyVal × List PyVal)}
    (hall : (allVals labelsE sets).all PyVal.hashable = true) :
    derivedLabels labelsE sets =
      pysort (unionSets (setUnionL [] labelsE) sets) := by
  simp [derivedLabels, tryUnion, hall]

theorem derivedLabels_of_unhashable {labelsE : List PyVal}
    {sets : List (List PyVal × List PyVal)}
    (hall : ¬ (allVals labelsE sets).all PyVal.hashable = true) :
    derivedLabels labelsE sets = pysort labelsE := by
  simp [derivedLabels, tryUnion, hall]

theorem mem_derivedLabels {labelsE : List PyVal}
    {sets : List (List PyVal × List PyVal)}
    (hall : (allVals labelsE sets).all PyVal.hashable = true) (x : PyVal) :
    x ∈ derivedLabels labelsE sets ↔ x ∈ allVals labelsE sets := by
  rw [derivedLabels_of_hashable hall, mem_pysort, mem_unionSets,
    mem_setUnionL, allVals, List.mem_append]
  simp

theorem nodup_derivedLabels {labelsE : List PyVal}
    {sets : List (List PyVal × List PyVal)}
    (hall : (allVals labelsE sets).all PyVal.hashable = true) :
    (derivedLabels labelsE sets).Nodup := by
  rw [derivedLabels_of_hashable hall]
  exact pysort_nodup (unionSets_nodup (setUnionL_nodup List.nodup_nil _) _)

theorem sorted_derivedLabels (labelsE : List PyVal)
    (sets : List (List PyVal × List PyVal)) :
    isSortedBy pyle (derivedLabels labelsE sets) = true := by
  unfold derivedLabels
  cases tryUnion labelsE sets with
  | some u => exact sorted_pysort u
  | none => exact sorted_pysort labelsE

/-! #### Pairs of the stored sets -/

theorem pairsOf_append (s1 s2 : List (List PyVal × List PyVal)) :
    pairsOf (s1 ++ s2) = pairsOf s1 ++ pairsOf s2 := by
  induction s1 with
  | nil => rfl
  | cons st rest ih => simp [pairsOf, ih]

theorem mem_pairsOf {sets : List (List PyVal × List PyVal)}
    {st : List PyVal × List PyVal} (hst : st ∈ sets)
    {tp : PyVal × PyVal} (htp : tp ∈ st.1.zip st.2) : tp ∈ pairsOf sets := by
  induction sets with
  | nil => cases hst
  | cons st0 rest ih =>
      rcases List.mem_cons.mp hst with heq | hmem
      · subst heq
        simp [pairsOf, htp]
      · simp [pairsOf, ih hmem]

theorem exists_zip_left {t p : List PyVal} (hlen : t.length = p.length)
    {x : PyVal} (hx : x ∈ t) : ∃ y, (x, y) ∈ t.zip p := by
  induction t generalizing p with
  | nil => cases hx
  | cons a as ih =>
      cases p with
      | nil => cases hlen
      | cons b bs =>
          rcases List.mem_cons.mp hx with heq | hmem
          · exact ⟨b, by simp [heq]⟩
          · obtain ⟨y, hy⟩ := ih (by simpa using hlen) hmem
            exact ⟨y, by simp [hy]⟩

theorem exists_zip_right {t p : List PyVal} (hlen : t.length = p.length)
    {y : PyVal} (hy : y ∈ p) : ∃ x, (x, y) ∈ t.zip p := by
  induction t generalizing p with
  | nil =>
      cases p with
      | nil => cases hy
      | cons b bs => cases hlen
  | cons a as ih =>
      cases p with
      | nil => cases hy
      | cons b bs =>
          rcases List.mem_cons.mp hy with heq | hmem
          · exact ⟨a, by simp [heq]⟩
          · obtain ⟨x, hx⟩ := ih (by simpa using hlen) hmem
            exact ⟨x, by simp [hx]⟩

theorem pairsOf_mem_vals {sets : List (List PyVal × List PyVal)}
    {tp : PyVal × PyVal} (htp : tp ∈ pairsOf sets) :
    tp.1 ∈ setVals sets ∧ tp.2 ∈ setVals sets := by
  induction sets with
  | nil => cases htp
  | cons st rest ih =>
      simp only [pairsOf, List.mem_append] at htp
      rcases htp with h | h
      · obtain ⟨h1, h2⟩ := List.of_mem_zip h
        exact ⟨by simp [setVals, h1], by simp [setVals, h2]⟩
      · obtain ⟨h1, h2⟩ := ih h
        exact ⟨by simp [setVals, h1], by simp [setVals, h2]⟩

theorem pairsOf_length {sets : List (List PyVal × List PyVal)}
    (hwf : wfLens sets) : (pairsOf sets).length = totalAdded sets := by
  induction sets with
  | nil => rfl
  | cons st rest ih =>
      have hlen : st.1.length = st.2.length := hwf st (by simp)
      simp only [pairsOf, totalAdded, List.length_append, List.map_cons,
        List.sum_cons, List.length_zip]
      rw [hlen, Nat.min_self]
      have := ih (fun s hs => hwf s (by simp [hs]))
      simp only [totalAdded] at this
      omega

theorem mem_setVals {sets : List (List PyVal × List PyVal)} {v : PyVal} :
    v ∈ setVals sets ↔ ∃ st ∈ sets, v ∈ st.1 ∨ v ∈ st.2 := by
  induction sets with
  | nil => simp [setVals]
  | cons st rest ih =>
      simp only [setVals, List.mem_append, ih, List.mem_cons]
      constructor
      · rintro ((h | h) | ⟨st2, hst2, h⟩)
        · exact ⟨st, Or.inl rfl, Or.inl h⟩
        · exact ⟨st, Or.inl rfl, Or.inr h⟩
        · exact ⟨st2, Or.inr hst2, h⟩
      · rintro ⟨st2, (heq | hmem), h⟩
        · subst heq; tauto
        · exact Or.inr ⟨st2, hmem, h⟩

/-- When `_compute` succeeds on a dirty matrix whose sets are well formed,
every value in sight was hashable (otherwise either the fallback labels
keep the unhashable value, so building `rev_map` raises, or the fill loop
raises looking the value up). -/
theorem allVals_hashable_of_compute {s s' : ConfusionMatrix}
    (hc : s.computed = false) (hwf : wfLens s.sets)
    (h : compute s = some s') :
    (allVals s.labels s.sets).all PyVal.hashable = true := by
  obtain ⟨hh, m, hfill, _⟩ := compute_elim hc h
  by_contra hcon
  obtain ⟨v, hvmem, hvh⟩ : ∃ v ∈ allVals s.labels s.sets,
      ¬ v.hashable = true := by
    by_contra hno
    push_neg at hno
    exact hcon (List.all_eq_true.mpr hno)
  have hderived : derivedLabels s.labels s.sets = pysort s.labels :=
    derivedLabels_of_unhashable hcon
  rcases List.mem_append.mp hvmem with hvE | hvS
  · have hmem2 : v ∈ derivedLabels s.labels s.sets := by
      rw [hderived]; exact mem_pysort.mpr hvE
    exact hvh ((List.all_eq_true.mp hh) v hmem2)
  · obtain ⟨st, hst, hv12⟩ := mem_setVals.mp hvS
    have hlen : st.1.length = st.2.length := hwf st hst
    have hpair : ∃ tp ∈ pairsOf s.sets, tp.1 = v ∨ tp.2 = v := by
      rcases hv12 with hv1 | hv2
      · obtain ⟨y, hy⟩ := exists_zip_left hlen hv1
        exact ⟨(v, y), mem_pairsOf hst hy, Or.inl rfl⟩
      · obtain ⟨x, hx⟩ := exists_zip_right hlen hv2
        exact ⟨(x, v), mem_pairsOf hst hx, Or.inr rfl⟩
    obtain ⟨tp, htp, hv⟩ := hpair
    have hres := (fillPairs_isSome_iff _ _ _).mp (by rw [hfill]; rfl) tp htp
    have hnone : revIdx (derivedLabels s.labels s.sets) v = none := by
      simp [revIdx, hvh]
    rcases hv with hv | hv
    · rw [hv] at hres
      rw [hnone] at hres
      cases hres.2
    · rw [hv] at hres
      rw [hnone] at hres
      cases hres.1

/-- Conversely: when every value is hashable, the fill loop resolves every
pair against the derived labels, so `_compute` succeeds. -/
theorem fillPairs_isSome_of_hashable {labelsE : List PyVal}
    {sets : List (List PyVal × List PyVal)}
    (hall : (allVals labelsE sets).all PyVal.hashable = true)
    (m : List (List Nat)) :
    (fillPairs (derivedLabels labelsE sets) m (pairsOf sets)).isSome
      = true := by
  rw [fillPairs_isSome_iff]
  intro tp htp
  obtain ⟨h1, h2⟩ := pairsOf_mem_vals htp
  have hall' := List.all_eq_true.mp hall
  have hh1 : tp.1.hashable = true :=
    hall' tp.1 (List.mem_append.mpr (Or.inr h1))
  have hh2 : tp.2.hashable = true :=
    hall' tp.2 (List.mem_append.mpr (Or.inr h2))
  constructor
  · exact revIdx_isSome hh2 ((mem_derivedLabels hall tp.2).mpr
      (List.mem_append.mpr (Or.inr h2)))
  · exact revIdx_isSome hh1 ((mem_derivedLabels hall tp.1).mpr
      (List.mem_append.mpr (Or.inr h1)))

/-! #### Sums over the computed matrix -/

theorem colSums_sum {m : List (List Nat)} (hm : Dims m m.length) :
    (colSums m).sum = sumAll m := by
  cases m with
  | nil => rfl
  | cons r rest =>
      have hr : ((r :: rest).getD 0 []).length = (r :: rest).length := by
        simpa using hm.2 r (by simp)
      unfold colSums
      rw [hr, mapSum_swap]
      unfold sumAll
      apply congrArg List.sum
      apply List.map_congr_left
      intro row hrow
      have hrl : row.length = (r :: rest).length := hm.2 row hrow
      have henum := list_enum_getD row id 0
      simp only [List.map_id, id] at henum
      rw [← hrl]
      exact henum

theorem sumAll_eq_entries {m : List (List Nat)} (hm : Dims m m.length) :
    ((List.range m.length).map (fun i =>
      ((List.range m.length).map (fun j => entry m i j)).sum)).sum
    = sumAll m := by
  have h1 : ∀ i ∈ List.range m.length,
      ((List.range m.length).map (fun j => entry m i j)).sum
        = (m.getD i []).sum := by
    intro i hi
    have hi' : i < m.length := List.mem_range.mp hi
    have hrl : (m.getD i []).length = m.length :=
      hm.2 _ (getD_mem m i [] hi')
    have henum := list_enum_getD (m.getD i []) id 0
    simp only [List.map_id, id] at henum
    rw [show (fun j => entry m i j) = fun j => (m.getD i []).getD j 0
      from rfl, ← hrl]
    exact henum
  rw [List.map_congr_left h1]
  have henum := list_enum_getD m List.sum []
  exact henum

theorem Pvec_sum {m : List (List Nat)} (hm : Dims m m.length) :
    (Pvec m).sum = sumAll m := by
  unfold Pvec
  rw [mapSum_add]
  have hTP : ((List.range m.length).map (fun i => (TPvec m).getD i 0)).sum
      = ((List.range m.length).map (fun i => entry m i i)).sum := by
    apply congrArg List.sum
    apply List.map_congr_left
    intro i hi
    exact getD_map_range _ 0 (List.mem_range.mp hi)
  have hFN : ((List.range m.length).map (fun j => (FNvec m).getD j 0)).sum
      = ((List.range m.length).map (fun j =>
          ((List.range m.length).map (fun i => offdiagE m i j)).sum)).sum := by
    apply congrArg List.sum
    apply List.map_congr_left
    intro j hj
    exact getD_map_range _ 0 (List.mem_range.mp hj)
  rw [hTP, hFN, mapSum_swap, ← mapSum_add]
  have hpoint : ∀ i ∈ List.range m.length,
      entry m i i
        + ((List.range m.length).map (fun j => offdiagE m i j)).sum
      = ((List.range m.length).map (fun j => entry m i j)).sum := by
    intro i hi
    have hi' := List.mem_range.mp hi
    have hsplit : ∀ j ∈ List.range m.length,
        entry m i j = (if i = j then entry m i i else 0) + offdiagE m i j := by
      intro j hj
      by_cases hij : i = j
      · subst hij; simp [offdiagE]
      · simp [offdiagE, hij]
    rw [List.map_congr_left hsplit, mapSum_add, mapSum_indicator hi']
  rw [List.map_congr_left hpoint]
  exact sumAll_eq_entries hm

theorem TPvec_sum (m : List (List Nat)) : (TPvec m).sum = traceM m := rfl

theorem statACC_eq {m : List (List Nat)} (hm : Dims m m.length) :
    statACC m = (traceM m : ℚ) / (sumAll m : ℚ) := by
  unfold statACC
  rw [TPvec_sum, Pvec_sum hm]

/-! #### From index counts to label counts -/

theorem countPairIdx_eq_pairCount {labels : List PyVal} (hnd : labels.Nodup)
    {ps : List (PyVal × PyVal)}
    (hres : ∀ tp ∈ ps, (tp : PyVal × PyVal).1 ∈ labels ∧
      tp.1.hashable = true ∧ tp.2 ∈ labels ∧ tp.2.hashable = true)
    {i j : Nat} (hi : i < labels.length) (hj : j < labels.length) :
    countPairIdx labels ps i j =
      ps.countP (fun tp => tp.2 == labels.getD i (.int 0) &&
                           tp.1 == labels.getD j (.int 0)) := by
  unfold countPairIdx
  apply List.countP_congr
  intro tp htp
  obtain ⟨ht1, hh1, ht2, hh2⟩ := hres tp htp
  simp only [Bool.and_eq_true, beq_iff_eq]
  constructor
  · rintro ⟨h1, h2⟩
    exact ⟨(revIdx_getD h1).symm, (revIdx_getD h2).symm⟩
  · rintro ⟨h1, h2⟩
    exact ⟨revIdx_of_nodup hnd hh2 hi h1.symm,
           revIdx_of_nodup hnd hh1 hj h2.symm⟩

/-- The membership and hashability facts needed to translate the fill-loop
counts, packaged for reuse. -/
theorem pairs_resolvable {labelsE : List PyVal}
    {sets : List (List PyVal × List PyVal)}
    (hall : (allVals labelsE sets).all PyVal.hashable = true) :
    ∀ tp ∈ pairsOf sets, (tp : PyVal × PyVal).1 ∈ derivedLabels labelsE sets ∧
      tp.1.hashable = true ∧ tp.2 ∈ derivedLabels labelsE sets ∧
      tp.2.hashable = true := by
  intro tp htp
  obtain ⟨h1, h2⟩ := pairsOf_mem_vals htp
  have hall' := List.all_eq_true.mp hall
  have m1 : tp.1 ∈ allVals labelsE sets := List.mem_append.mpr (Or.inr h1)
  have m2 : tp.2 ∈ allVals labelsE sets := List.mem_append.mpr (Or.inr h2)
  exact ⟨(mem_derivedLabels hall tp.1).mpr m1, hall' tp.1 m1,
         (mem_derivedLabels hall tp.2).mpr m2, hall' tp.2 m2⟩

end ConfusionMatrix

namespace ConfusionMatrix

/-- Elimination form for a successful `add`: the lengths matched, the
coercion loop succeeded, exactly one pair was appended, the computed flag
was cleared, and the caller sees the original tuple or the final list. -/
theorem add_elim {s : ConfusionMatrix} {t : List PyVal} {p : PySeq}
    {s2 : ConfusionMatrix} {v : PySeq}
    (h : ConfusionMatrix.add s t p = .ok (s2, v)) :
    t.length = p.length ∧
    ∃ preds, coerceAux t p 0 = .ok preds ∧
      s2 = { s with sets := s.sets ++ [(t, preds.toList)],
                    computed := false } ∧
      v = (match p with
           | .tuple xs => PySeq.tuple xs
           | .list _ => preds) := by
  unfold ConfusionMatrix.add at h
  by_cases hlen : t.length = p.length
  · rw [if_neg (by omega)] at h
    cases hco : coerceAux t p 0 with
    | error e => rw [hco] at h; cases h
    | ok preds =>
        rw [hco] at h
        refine ⟨hlen, preds, rfl, ?_, ?_⟩
        · cases h; rfl
        · cases h; cases p <;> rfl
  · rw [if_pos (by omega)] at h
    cases h

end ConfusionMatrix

open ConfusionMatrix in
/-- Claim C1: after any sequence of `add` calls, the computed matrix is
prediction-major — `matrix[i][j]` counts the (target, prediction) pairs
across all stored sample sets with prediction `labels[i]` and target
`labels[j]` — and the sum of all matrix entries is the total number of
samples added; in particular, for targets `[1,1,2,2]` and predictions
`[1,2,2,2]`, the labels are `[1,2]` and the matrix is `[[1,0],[1,2]]`. -/
theorem claim1_matrix_counts :
    (∀ s s' : ConfusionMatrix, wfLens s.sets → s.computed = false →
      compute s = some s' →
      ∃ m, s'.matrix = some m ∧
        (∀ i j, i < s'.labels.length → j < s'.labels.length →
          entry m i j = pairCount s.sets
            (s'.labels.getD i (.int 0)) (s'.labels.getD j (.int 0))) ∧
        sumAll m = totalAdded s.sets) ∧
    (∃ s1 v, ConfusionMatrix.add (ConfusionMatrix.empty [])
        [.int 1, .int 1, .int 2, .int 2]
        (.list [.int 1, .int 2, .int 2, .int 2]) = .ok (s1, v) ∧
      ∃ s2, compute s1 = some s2 ∧
        s2.labels = [.int 1, .int 2] ∧
        s2.matrix = some [[1, 0], [1, 2]]) := by
  constructor
  · intro s s' hwf hc h
    obtain ⟨hh, m, hfill, hs'⟩ := compute_elim hc h
    have hall := allVals_hashable_of_compute hc hwf h
    have hnd := nodup_derivedLabels hall
    refine ⟨m, by rw [hs'], ?_, ?_⟩
    · intro i j hi hj
      have hi' : i < (derivedLabels s.labels s.sets).length := by
        rw [hs'] at hi; exact hi
      have hj' : j < (derivedLabels s.labels s.sets).length := by
        rw [hs'] at hj; exact hj
      have hentry := fillPairs_entry hfill
        (by simpa using zeroMatrix_dims (derivedLabels s.labels s.sets).length)
        i j
      rw [entry_zeroMatrix, Nat.zero_add] at hentry
      rw [hentry, countPairIdx_eq_pairCount hnd (pairs_resolvable hall)
        hi' hj']
      rw [hs']
      rfl
    · have hsum := fillPairs_sumAll hfill
        (by simpa using zeroMatrix_dims (derivedLabels s.labels s.sets).length)
      rw [sumAll_zeroMatrix, Nat.zero_add] at hsum
      rw [hsum, pairsOf_length hwf]
  · exact ⟨_, _, rfl, _, rfl, rfl, rfl⟩

open ConfusionMatrix in
/-- Witness for C1: the general statement applied to the concrete example
state, with its hypotheses discharged by computation. -/
theorem claim1_matrix_counts_witness :
    wfLens exampleCM.sets ∧ exampleCM.computed = false ∧
    ∃ s', compute exampleCM = some s' ∧
      ∃ m, s'.matrix = some m ∧
        (∀ i j, i < s'.labels.length → j < s'.labels.length →
          entry m i j = pairCount exampleCM.sets
            (s'.labels.getD i (.int 0)) (s'.labels.getD j (.int 0))) ∧
        sumAll m = totalAdded exampleCM.sets :=
  ⟨by unfold wfLens; decide, rfl,
    ⟨_, rfl, claim1_matrix_counts.1 exampleCM _ (by unfold wfLens; decide)
      rfl rfl⟩⟩

open ConfusionMatrix in
/-- Claim C2: with at least one sample, the derived scalar `ACC` equals
`trace(matrix) / sum(matrix)`, the `error` accessor returns `1 - ACC`, and
the `percentCorrect` accessor returns `100 * ACC`. -/
theorem claim2_acc_error_pct :
    ∀ s s' : ConfusionMatrix, wfLens s.sets → s.computed = false →
      compute s = some s' → 0 < totalAdded s.sets →
      ∃ m, s'.matrix = some m ∧
        statACC m = (traceM m : ℚ) / (sumAll m : ℚ) ∧
        errorAcc s = some (s', PyFloat.val (1 - statACC m)) ∧
        percentCorrectAcc s = some (s', PyFloat.val (100 * statACC m)) := by
  intro s s' hwf hc h htotal
  obtain ⟨hh, m, hfill, hs'⟩ := compute_elim hc h
  have hdims : Dims m (derivedLabels s.labels s.sets).length :=
    fillPairs_dims hfill (zeroMatrix_dims _)
  have hdims' : Dims m m.length := by
    obtain ⟨h1, h2⟩ := hdims
    exact ⟨rfl, fun row hr => (h2 row hr).trans h1.symm⟩
  have hsum : sumAll m = totalAdded s.sets := by
    have hsum0 := fillPairs_sumAll hfill (zeroMatrix_dims _)
    rw [sumAll_zeroMatrix, Nat.zero_add] at hsum0
    rw [hsum0, pairsOf_length hwf]
  have hNs : s'.Nsamples.sum = sumAll m := by
    rw [hs']
    exact colSums_sum hdims'
  have hNssum_ne : s'.Nsamples.sum ≠ 0 := by
    rw [hNs, hsum]; omega
  have hNc : s'.Ncorrect = traceM m := by rw [hs']
  have hACC := statACC_eq hdims'
  refine ⟨m, by rw [hs'], hACC, ?_, ?_⟩
  · unfold errorAcc
    rw [h, Option.map_some']
    congr 1
    rw [if_neg hNssum_ne]
    congr 1
    rw [hNc, hNs, hACC]
  · unfold percentCorrectAcc
    rw [h, Option.map_some']
    congr 1
    rw [if_neg hNssum_ne]
    congr 1
    rw [hNc, hNs, hACC, mul_div_assoc]

open ConfusionMatrix in
/-- Witness for C2: the accessors evaluated on the spec's example matrix
give `ACC = 3/4`, `error = 1/4` and `percentCorrect = 75`. -/
theorem claim2_acc_error_pct_witness :
    wfLens exampleCM.sets ∧ 0 < totalAdded exampleCM.sets ∧
    ∃ s', compute exampleCM = some s' ∧
      ∃ m, s'.matrix = some m ∧
        statACC m = (traceM m : ℚ) / (sumAll m : ℚ) ∧
        errorAcc exampleCM = some (s', PyFloat.val (1 - statACC m)) ∧
        percentCorrectAcc exampleCM
          = some (s', PyFloat.val (100 * statACC m)) :=
  ⟨by unfold wfLens; decide, by decide,
    ⟨_, rfl, claim2_acc_error_pct exampleCM _ (by unfold wfLens; decide)
      rfl rfl (by decide)⟩⟩

theorem PySeq.toList_setIdx (p : PySeq) (i : Nat) (v : PyVal) :
    (p.setIdx i v).toList = updAt p.toList i (fun _ => v) := by
  cases p <;> rfl

theorem PySeq.length_setIdx (p : PySeq) (i : Nat) (v : PyVal) :
    (p.setIdx i v).length = p.length := by
  cases p <;> simp [PySeq.length, PySeq.setIdx, PySeq.toList, updAt_length]

theorem PySeq.getIdx_setIdx_same {p : PySeq} {i : Nat} (v : PyVal)
    (h : i < p.length) : (p.setIdx i v).getIdx i = v := by
  unfold PySeq.getIdx
  rw [PySeq.toList_setIdx]
  exact updAt_getD_same _ _ _ _ h

theorem PySeq.getIdx_setIdx_ne {p : PySeq} {i k : Nat} (v : PyVal)
    (h : i ≠ k) : (p.setIdx i v).getIdx k = p.getIdx k := by
  unfold PySeq.getIdx
  rw [PySeq.toList_setIdx]
  exact updAt_getD_ne _ _ _ _ _ h

theorem detuple_toList (p : PySeq) : (detuple p).toList = p.toList := by
  cases p <;> rfl

theorem detuple_length (p : PySeq) : (detuple p).length = p.length := by
  cases p <;> rfl

theorem detuple_getIdx (p : PySeq) (k : Nat) :
    (detuple p).getIdx k = p.getIdx k := by
  cases p <;> rfl

/-- A successful coercion yields a value of the requested type. -/
theorem pyConvert_pyType {ty : PyType} {v w : PyVal}
    (h : pyConvert ty v = .ok w) : w.pyType = ty := by
  cases ty <;> cases v <;>
    simp only [pyConvert] at h ⊢
  case intT.int => cases h; rfl
  case intT.lst => cases h
  case lstT.int => cases h
  case intT.str s =>
      cases hp : pyParseInt s with
      | none => rw [hp] at h; cases h
      | some n => rw [hp] at h; cases h; rfl
  case strT.int => cases h; rfl
  case strT.str => cases h; rfl
  case strT.lst => cases h; rfl
  case lstT.str => cases h; rfl
  case lstT.lst => cases h; rfl

namespace ConfusionMatrix

/-- Characterization of the coercion loop of `add`, relative to the original
predictions buffer: length preserved, positions outside the processed window
untouched, and each processed position either left alone (matching types) or
overwritten with the conversion of its original value to the target's type. -/
theorem coerceAux_spec {t : List PyVal} {p q : PySeq} {i0 : Nat}
    (hrange : i0 + t.length ≤ p.length)
    (h : coerceAux t p i0 = .ok q) :
    q.length = p.length ∧
    (∀ k, (k < i0 ∨ i0 + t.length ≤ k) → q.getIdx k = p.getIdx k) ∧
    (∀ j, j < t.length →
      ((t.getD j (.int 0)).pyType = (p.getIdx (i0 + j)).pyType →
        q.getIdx (i0 + j) = p.getIdx (i0 + j)) ∧
      ((t.getD j (.int 0)).pyType ≠ (p.getIdx (i0 + j)).pyType →
        pyConvert (t.getD j (.int 0)).pyType (p.getIdx (i0 + j))
          = .ok (q.getIdx (i0 + j)))) := by
  induction t generalizing p i0 with
  | nil =>
      simp only [coerceAux] at h
      cases h
      exact ⟨rfl, fun k _ => rfl, fun j hj => by cases hj⟩
  | cons t0 ts ih =>
      simp only [coerceAux] at h
      by_cases hty : t0.pyType = (p.getIdx i0).pyType
      · rw [if_neg (by simpa using hty)] at h
        have hrange' : (i0 + 1) + ts.length ≤ p.length := by
          simp only [List.length_cons] at hrange; omega
        obtain ⟨hq, huntouched, hrel⟩ := ih hrange' h
        refine ⟨hq, ?_, ?_⟩
        · intro k hk
          apply huntouched
          simp only [List.length_cons] at hk
          omega
        · intro j hj
          cases j with
          | zero =>
              refine ⟨fun _ => ?_, fun hne => absurd ?_ hne⟩
              · have := huntouched i0 (Or.inl (by omega))
                simpa using this
              · simpa using hty
          | succ j' =>
              have hj' : j' < ts.length := by simpa using hj
              have := hrel j' hj'
              constructor
              · intro heq
                have heq' : (ts.getD j' (.int 0)).pyType
                    = (p.getIdx ((i0 + 1) + j')).pyType := by
                  simpa [Nat.add_assoc, Nat.add_comm 1 j']
                    using heq
                have := this.1 heq'
                simpa [Nat.add_assoc, Nat.add_comm 1 j'] using this
              · intro hne
                have hne' : (ts.getD j' (.int 0)).pyType
                    ≠ (p.getIdx ((i0 + 1) + j')).pyType := by
                  simpa [Nat.add_assoc, Nat.add_comm 1 j'] using hne
                have := this.2 hne'
                simpa [Nat.add_assoc, Nat.add_comm 1 j'] using this
      · rw [if_pos (by simpa using hty)] at h
        cases hcv : pyConvert t0.pyType (p.getIdx i0) with
        | error e => rw [hcv] at h; cases h
        | ok w =>
            rw [hcv] at h
            have hi0lt : i0 < p.length := by
              simp only [List.length_cons] at hrange; omega
            set p' : PySeq := (detuple p).setIdx i0 w with hp'
            have hplen : p'.length = p.length := by
              rw [hp', PySeq.length_setIdx, detuple_length]
            have hpget_same : p'.getIdx i0 = w := by
              rw [hp']
              exact PySeq.getIdx_setIdx_same w
                (by rw [detuple_length]; exact hi0lt)
            have hpget_ne : ∀ k, k ≠ i0 → p'.getIdx k = p.getIdx k := by
              intro k hk
              rw [hp', PySeq.getIdx_setIdx_ne w (fun hc => hk hc.symm),
                detuple_getIdx]
            have hrange' : (i0 + 1) + ts.length ≤ p'.length := by
              rw [hplen]
              simp only [List.length_cons] at hrange; omega
            obtain ⟨hq, huntouched, hrel⟩ := ih hrange' h
            refine ⟨hq.trans hplen, ?_, ?_⟩
            · intro k hk
              have hki0 : k ≠ i0 := by
                simp only [List.length_cons] at hk
                omega
              rw [← hpget_ne k hki0]
              apply huntouched
              simp only [List.length_cons] at hk
              omega
            · intro j hj
              cases j with
              | zero =>
                  refine ⟨fun heq => absurd ?_ hty, fun _ => ?_⟩
                  · simpa using heq
                  · have hqw : q.getIdx i0 = w := by
                      have := huntouched i0 (Or.inl (by omega))
                      rw [this]
                      exact hpget_same
                    simpa [hqw] using hcv
              | succ j' =>
                  have hj' : j' < ts.length := by simpa using hj
                  have hpos : p'.getIdx ((i0 + 1) + j') =
                      p.getIdx (i0 + (j' + 1)) := by
                    rw [hpget_ne _ (by omega)]
                    congr 1
                    omega
                  have := hrel j' hj'
                  constructor
                  · intro heq
                    have heq' : (ts.getD j' (.int 0)).pyType
                        = (p'.getIdx ((i0 + 1) + j')).pyType := by
                      rw [hpos]
                      simpa using heq
                    have hres := this.1 heq'
                    rw [hpos] at hres
                    rw [show i0 + 1 + j' = i0 + (j' + 1) from by omega]
                      at hres
                    simpa using hres
                  · intro hne
                    have hne' : (ts.getD j' (.int 0)).pyType
                        ≠ (p'.getIdx ((i0 + 1) + j')).pyType := by
                      rw [hpos]
                      simpa using hne
                    have hres := this.2 hne'
                    rw [hpos] at hres
                    rw [show i0 + 1 + j' = i0 + (j' + 1) from by omega]
                      at hres
                    simpa using hres

end ConfusionMatrix

open ConfusionMatrix in
/-- Claim C3: reads are idempotent and recomputation is gated by the dirty
flag: `_compute` returns immediately on a clean state, a successful
`_compute` marks the state clean, `add` is what marks it dirty again, and
every accessor routes through `_compute`, so a repeated read of `labels`,
`matrix`, `error` or `percentCorrect` with no intervening `add` returns the
identical state and value. -/
theorem claim3_lazy_idempotent :
    (∀ s : ConfusionMatrix, s.computed = true → compute s = some s) ∧
    (∀ s s' : ConfusionMatrix, compute s = some s' →
      s'.computed = true ∧ compute s' = some s') ∧
    (∀ (s s2 : ConfusionMatrix) t p v,
      ConfusionMatrix.add s t p = .ok (s2, v) → s2.computed = false) ∧
    (∀ (s s' : ConfusionMatrix) v, labelsAcc s = some (s', v) →
      labelsAcc s' = some (s', v)) ∧
    (∀ (s s' : ConfusionMatrix) v, matrixAcc s = some (s', v) →
      matrixAcc s' = some (s', v)) ∧
    (∀ (s s' : ConfusionMatrix) v, errorAcc s = some (s', v) →
      errorAcc s' = some (s', v)) ∧
    (∀ (s s' : ConfusionMatrix) v, percentCorrectAcc s = some (s', v) →
      percentCorrectAcc s' = some (s', v)) := by
  refine ⟨fun s h => compute_of_computed h,
    fun s s' h => ⟨compute_computed h, compute_idem h⟩,
    ?_, ?_, ?_, ?_, ?_⟩
  · intro s s2 t p v h
    obtain ⟨-, preds, -, hs2, -⟩ := add_elim h
    rw [hs2]
  · intro s s' v h
    unfold labelsAcc at h ⊢
    cases hc : compute s with
    | none => rw [hc] at h; cases h
    | some s0 =>
        rw [hc, Option.map_some'] at h
        obtain ⟨rfl, rfl⟩ := Prod.mk.inj (Option.some.inj h)
        rw [compute_idem hc, Option.map_some']
  · intro s s' v h
    unfold matrixAcc at h ⊢
    cases hc : compute s with
    | none => rw [hc] at h; cases h
    | some s0 =>
        rw [hc, Option.map_some'] at h
        obtain ⟨rfl, rfl⟩ := Prod.mk.inj (Option.some.inj h)
        rw [compute_idem hc, Option.map_some']
  · intro s s' v h
    unfold errorAcc at h ⊢
    cases hc : compute s with
    | none => rw [hc] at h; cases h
    | some s0 =>
        rw [hc, Option.map_some'] at h
        obtain ⟨rfl, rfl⟩ := Prod.mk.inj (Option.some.inj h)
        rw [compute_idem hc, Option.map_some']
  · intro s s' v h
    unfold percentCorrectAcc at h ⊢
    cases hc : compute s with
    | none => rw [hc] at h; cases h
    | some s0 =>
        rw [hc, Option.map_some'] at h
        obtain ⟨rfl, rfl⟩ := Prod.mk.inj (Option.some.inj h)
        rw [compute_idem hc, Option.map_some']

open ConfusionMatrix in
/-- Witness for C3: a second read of `matrix` on the example state returns
the identical state and value the first read produced. -/
theorem claim3_lazy_idempotent_witness :
    matrixAcc exampleCM = some (exampleCM2, some [[1, 0], [1, 2]]) ∧
    matrixAcc exampleCM2 = some (exampleCM2, some [[1, 0], [1, 2]]) :=
  ⟨rfl, claim3_lazy_idempotent.2.2.2.2.1 exampleCM exampleCM2 _ rfl⟩

open ConfusionMatrix in
/-- Counterexample to C4 as stated: with targets `[1]` and predictions
`["a"]` the two lengths agree, yet `add` raises `ValueError` — the
per-index coercion `int("a")` fails with `ValueError` inside the loop, so
a `ValueError` does not imply a length mismatch. -/
theorem claim4_counterexample :
    [PyVal.int 1].length = (PySeq.list [PyVal.str "a"]).length ∧
    ConfusionMatrix.add (ConfusionMatrix.empty []) [PyVal.int 1]
      (PySeq.list [PyVal.str "a"]) = .error .valueError :=
  ⟨rfl, rfl⟩

open ConfusionMatrix in
/-- Claim C4 (amended): `add` raises `ValueError` whenever the sequence
lengths differ, before touching any state; with equal lengths the
per-index type coercion can still raise (for instance `ValueError` when a
non-numeric string prediction meets an int target); when nothing raises,
exactly one new pair is appended, the matrix is marked as needing
recomputation, and the rest of the state is unchanged.  Raising paths
return before the append, so the stored list and the flag are unchanged on
error. -/
theorem claim4_add_validation :
    (∀ (s : ConfusionMatrix) t p, t.length ≠ p.length →
      ConfusionMatrix.add s t p = .error .valueError) ∧
    (∀ (s s2 : ConfusionMatrix) t p v,
      ConfusionMatrix.add s t p = .ok (s2, v) →
      t.length = p.length ∧
      ∃ preds, coerceAux t p 0 = .ok preds ∧
        s2.sets = s.sets ++ [(t, preds.toList)] ∧ s2.computed = false ∧
        s2.labels = s.labels ∧ s2.matrix = s.matrix) := by
  constructor
  · intro s t p hne
    unfold ConfusionMatrix.add
    rw [if_pos hne]
  · intro s s2 t p v h
    obtain ⟨hlen, preds, hco, hs2, -⟩ := add_elim h
    exact ⟨hlen, preds, hco, by rw [hs2], by rw [hs2], by rw [hs2],
      by rw [hs2]⟩

open ConfusionMatrix in
/-- Witness for C4 (amended): a length mismatch raises `ValueError`, and a
well-typed equal-length `add` appends one pair and clears the flag. -/
theorem claim4_add_validation_witness :
    ConfusionMatrix.add (ConfusionMatrix.empty []) [PyVal.int 1]
        (PySeq.list []) = .error .valueError ∧
    ([PyVal.int 1].length = (PySeq.list [PyVal.int 2]).length ∧
      ∃ preds, coerceAux [PyVal.int 1] (PySeq.list [PyVal.int 2]) 0
          = .ok preds ∧
        exampleAdd1.sets = (ConfusionMatrix.empty []).sets
            ++ [([PyVal.int 1], preds.toList)] ∧
        exampleAdd1.computed = false ∧
        exampleAdd1.labels = (ConfusionMatrix.empty []).labels ∧
        exampleAdd1.matrix = (ConfusionMatrix.empty []).matrix) :=
  ⟨claim4_add_validation.1 (ConfusionMatrix.empty []) [PyVal.int 1]
      (PySeq.list []) (by decide),
   claim4_add_validation.2 (ConfusionMatrix.empty []) exampleAdd1
      [PyVal.int 1] (PySeq.list [PyVal.int 2]) (PySeq.list [PyVal.int 2])
      rfl⟩

namespace ConfusionMatrix

theorem coerceAux_list {t : List PyVal} {xs : List PyVal} {i0 : Nat}
    {q : PySeq} (h : coerceAux t (.list xs) i0 = .ok q) :
    ∃ ys, q = PySeq.list ys := by
  induction t generalizing xs i0 with
  | nil =>
      simp only [coerceAux] at h
      cases h
      exact ⟨xs, rfl⟩
  | cons t0 ts ih =>
      simp only [coerceAux] at h
      by_cases hty : t0.pyType = ((PySeq.list xs).getIdx i0).pyType
      · rw [if_neg (by simpa using hty)] at h
        exact ih h
      · rw [if_pos (by simpa using hty)] at h
        cases hcv : pyConvert t0.pyType ((PySeq.list xs).getIdx i0) with
        | error e => rw [hcv] at h; cases h
        | ok w =>
            rw [hcv] at h
            exact ih h

end ConfusionMatrix

open ConfusionMatrix in
/-- Claim C9 (implicit): `add` stores the caller's sequences by reference
and writes coercions back into the caller's data: with a list of
predictions, the stored entry is the caller's own (now mutated) list —
every index with a type mismatch holds the original value converted to the
target's type, which differs from the original, and matching indexes are
untouched — while a tuple of predictions is first converted to a fresh
list, leaving the caller's tuple untouched. -/
theorem claim9_add_mutates_caller :
    (∀ (s s2 : ConfusionMatrix) t xs v,
      ConfusionMatrix.add s t (.tuple xs) = .ok (s2, v) →
      v = PySeq.tuple xs) ∧
    (∀ (s s2 : ConfusionMatrix) t xs v,
      ConfusionMatrix.add s t (.list xs) = .ok (s2, v) →
      ∃ ys, v = PySeq.list ys ∧
        s2.sets = s.sets ++ [(t, ys)] ∧ ys.length = xs.length ∧
        (∀ i, i < t.length →
          ((t.getD i (.int 0)).pyType = (xs.getD i (.int 0)).pyType →
            ys.getD i (.int 0) = xs.getD i (.int 0)) ∧
          ((t.getD i (.int 0)).pyType ≠ (xs.getD i (.int 0)).pyType →
            pyConvert (t.getD i (.int 0)).pyType (xs.getD i (.int 0))
              = .ok (ys.getD i (.int 0)) ∧
            ys.getD i (.int 0) ≠ xs.getD i (.int 0)))) := by
  constructor
  · intro s s2 t xs v h
    obtain ⟨-, preds, -, -, hv⟩ := add_elim h
    exact hv
  · intro s s2 t xs v h
    obtain ⟨hlen, preds, hco, hs2, hv⟩ := add_elim h
    obtain ⟨ys, hys⟩ := coerceAux_list hco
    subst hys
    refine ⟨ys, hv, ?_, ?_, ?_⟩
    · rw [hs2]
      rfl
    · have := (@coerceAux_spec t (PySeq.list xs) (PySeq.list ys) 0
        (by simpa using hlen.le) hco).1
      simpa [PySeq.length] using this
    · intro i hi
      have hrel := (@coerceAux_spec t (PySeq.list xs) (PySeq.list ys) 0
        (by simpa using hlen.le) hco).2.2 i hi
      have hq : ∀ k, (PySeq.list ys).getIdx k = ys.getD k (.int 0) := by
        intro k; rfl
      have hp : ∀ k, (PySeq.list xs).getIdx k = xs.getD k (.int 0) := by
        intro k; rfl
      rw [Nat.zero_add, hq, hp] at hrel
      refine ⟨hrel.1, fun hne => ⟨hrel.2 hne, fun heq => ?_⟩⟩
      have htype := pyConvert_pyType (hrel.2 hne)
      rw [heq] at htype
      exact hne htype.symm

open ConfusionMatrix in
/-- Witness for C9: adding targets `[1, "a"]` with prediction list
`["5", "b"]` mutates the caller's list to `[5, "b"]`, which is what gets
stored. -/
theorem claim9_add_mutates_caller_witness :
    ∃ ys, PySeq.list [PyVal.int 5, PyVal.str "b"] = PySeq.list ys ∧
      exampleAdd2.sets = (ConfusionMatrix.empty []).sets
          ++ [([PyVal.int 1, PyVal.str "a"], ys)] ∧
      ys.length = [PyVal.str "5", PyVal.str "b"].length ∧
      (∀ i, i < [PyVal.int 1, PyVal.str "a"].length →
        (([PyVal.int 1, PyVal.str "a"].getD i (.int 0)).pyType
            = ([PyVal.str "5", PyVal.str "b"].getD i (.int 0)).pyType →
          ys.getD i (.int 0)
            = [PyVal.str "5", PyVal.str "b"].getD i (.int 0)) ∧
        (([PyVal.int 1, PyVal.str "a"].getD i (.int 0)).pyType
            ≠ ([PyVal.str "5", PyVal.str "b"].getD i (.int 0)).pyType →
          pyConvert ([PyVal.int 1, PyVal.str "a"].getD i (.int 0)).pyType
              ([PyVal.str "5", PyVal.str "b"].getD i (.int 0))
            = .ok (ys.getD i (.int 0)) ∧
          ys.getD i (.int 0)
            ≠ [PyVal.str "5", PyVal.str "b"].getD i (.int 0))) :=
  claim9_add_mutates_caller.2 (ConfusionMatrix.empty []) exampleAdd2
    [PyVal.int 1, PyVal.str "a"] [PyVal.str "5", PyVal.str "b"]
    (PySeq.list [PyVal.int 5, PyVal.str "b"]) rfl

open ConfusionMatrix in
/-- Counterexample to C7 as stated: on a matrix with explicit labels
`[2, 1]` and an unhashable prediction value, the label union fails, but the
fallback labels come out sorted as `[1, 2]` — not in the originally given
order `[2, 1]` — and the computation then raises (`none`) when the fill
loop indexes the matrix by the unhashable value, rather than completing. -/
theorem claim7_counterexample :
    tryUnion [PyVal.int 2, PyVal.int 1] [([PyVal.int 1], [PyVal.lst []])]
      = none ∧
    derivedLabels [PyVal.int 2, PyVal.int 1]
      [([PyVal.int 1], [PyVal.lst []])] = [PyVal.int 1, PyVal.int 2] ∧
    derivedLabels [PyVal.int 2, PyVal.int 1]
      [([PyVal.int 1], [PyVal.lst []])] ≠ [PyVal.int 2, PyVal.int 1] ∧
    compute exampleBadCM = none :=
  ⟨rfl, rfl, by decide, rfl⟩

open ConfusionMatrix in
/-- Claim C7 (amended): when the label union fails, `_compute` falls back
to the explicitly supplied label list but then sorts it like any other
label list (the in-place `labels.sort()` runs in both branches), and on a
well-formed dirty matrix the computation afterwards always raises — the
offending unhashable value either sits among the labels, so building the
reverse map raises, or inside a sample set, so the fill loop's lookup
raises.  When the union succeeds, the stored labels are exactly the
distinct observed target and prediction values together with the explicit
labels, in sorted order. -/
theorem claim7_labels_fallback :
    (∀ (labelsE : List PyVal) (sets : List (List PyVal × List PyVal)),
      ¬ (allVals labelsE sets).all PyVal.hashable = true →
      derivedLabels labelsE sets = pysort labelsE) ∧
    (∀ s : ConfusionMatrix, s.computed = false → wfLens s.sets →
      ¬ (allVals s.labels s.sets).all PyVal.hashable = true →
      compute s = none) ∧
    (∀ (labelsE : List PyVal) (sets : List (List PyVal × List PyVal)),
      (allVals labelsE sets).all PyVal.hashable = true →
      (∀ x, x ∈ derivedLabels labelsE sets ↔ x ∈ allVals labelsE sets) ∧
      (derivedLabels labelsE sets).Nodup ∧
      isSortedBy pyle (derivedLabels labelsE sets) = true) := by
  refine ⟨fun labelsE sets h => derivedLabels_of_unhashable h, ?_, ?_⟩
  · intro s hc hwf hall
    cases h : compute s with
    | none => rfl
    | some s' => exact absurd (allVals_hashable_of_compute hc hwf h) hall
  · intro labelsE sets hall
    exact ⟨mem_derivedLabels hall, nodup_derivedLabels hall,
      sorted_derivedLabels labelsE sets⟩

open ConfusionMatrix in
/-- Witness for C7 (amended): the failing example falls back to the sorted
explicit labels and raises; an all-hashable example yields the sorted,
duplicate-free union. -/
theorem claim7_labels_fallback_witness :
    derivedLabels exampleBadCM.labels exampleBadCM.sets
        = pysort exampleBadCM.labels ∧
    compute exampleBadCM = none ∧
    ((∀ x, x ∈ derivedLabels [PyVal.int 2, PyVal.int 1]
          [([PyVal.int 1], [PyVal.int 1])] ↔
        x ∈ allVals [PyVal.int 2, PyVal.int 1]
          [([PyVal.int 1], [PyVal.int 1])]) ∧
      (derivedLabels [PyVal.int 2, PyVal.int 1]
        [([PyVal.int 1], [PyVal.int 1])]).Nodup ∧
      isSortedBy pyle (derivedLabels [PyVal.int 2, PyVal.int 1]
        [([PyVal.int 1], [PyVal.int 1])]) = true) :=
  ⟨claim7_labels_fallback.1 exampleBadCM.labels exampleBadCM.sets
      (by decide),
   claim7_labels_fallback.2.1 exampleBadCM rfl (by unfold wfLens; decide)
      (by decide),
   claim7_labels_fallback.2.2 [PyVal.int 2, PyVal.int 1]
      [([PyVal.int 1], [PyVal.int 1])] (by decide)⟩

/-- Claim C8: `ConfusionBasedError._call` reads the named confusion matrix
from the classifier's state, stores that matrix in its own `confusion`
slot, and returns the matrix's `error` value — reading neither dataset
argument, so the result is the same for every pair of datasets supplied. -/
theorem claim8_confusion_based_error :
    ∀ (e : ConfusionBasedError) (cm cm2 : ConfusionMatrix) (q : ℚ),
      e.clf.getvalue e.confusion_state = some cm →
      cm.errorAcc = some (cm2, PyFloat.val q) →
      ∀ (td1 td2 : Dataset) (tr1 tr2 : Option Dataset),
        e.call td1 tr1
          = some ({ e with confusion := some cm2 }, PyFloat.val q) ∧
        e.call td1 tr1 = e.call td2 tr2 := by
  intro e cm cm2 q hget herr td1 td2 tr1 tr2
  have hcall : ∀ (td : Dataset) (tr : Option Dataset),
      e.call td tr
        = some ({ e with confusion := some cm2 }, PyFloat.val q) := by
    intro td tr
    unfold ConfusionBasedError.call
    rw [hget]
    show Option.map
      (fun r => ({ e with confusion := some r.1 }, r.2)) cm.errorAcc = _
    rw [herr, Option.map_some']
  exact ⟨hcall td1 tr1, (hcall td1 tr1).trans (hcall td2 tr2).symm⟩

/-- Witness for C8: a classifier whose `training_confusion` slot holds a
matrix with one of two samples misclassified (error `1 - 1/2`); the call
returns exactly that value and the same result for two different pairs of
dataset arguments. -/
theorem claim8_confusion_based_error_witness :
    exampleCBE.call exampleDS1 none
        = some ({ exampleCBE with confusion := some exampleErrCM2 },
            PyFloat.val (1 - (exampleErrCM2.Ncorrect : ℚ)
              / (exampleErrCM2.Nsamples.sum : ℚ))) ∧
    exampleCBE.call exampleDS1 none
        = exampleCBE.call exampleDS2 (some exampleDS1) :=
  claim8_confusion_based_error exampleCBE exampleErrCM exampleErrCM2 _
    rfl rfl exampleDS1 exampleDS2 none (some exampleDS1)

open ConfusionMatrix in
/-- Claim C10 (implicit): the `error` and `percentCorrect` accessors divide
by the total sample count with no zero guard, so with zero samples the
division by zero is reached and no ordinary number comes back (`nan`),
while any matrix holding at least one sample gets an ordinary rational from
both accessors. -/
theorem claim10_zero_guard :
    emptyComputed.Nsamples.sum = 0 ∧
    errorAcc (ConfusionMatrix.empty [])
      = some (emptyComputed, PyFloat.nan) ∧
    percentCorrectAcc (ConfusionMatrix.empty [])
      = some (emptyComputed, PyFloat.nan) ∧
    (∀ s s' : ConfusionMatrix, wfLens s.sets → s.computed = false →
      compute s = some s' → 0 < totalAdded s.sets →
      (∃ q, errorAcc s = some (s', PyFloat.val q)) ∧
      (∃ q, percentCorrectAcc s = some (s', PyFloat.val q))) := by
  refine ⟨rfl, rfl, rfl, ?_⟩
  intro s s' hwf hc h htotal
  obtain ⟨hh, m, hfill, hs'⟩ := compute_elim hc h
  have hdims : Dims m (derivedLabels s.labels s.sets).length :=
    fillPairs_dims hfill (zeroMatrix_dims _)
  have hdims' : Dims m m.length := by
    obtain ⟨h1, h2⟩ := hdims
    exact ⟨rfl, fun row hr => (h2 row hr).trans h1.symm⟩
  have hsum : sumAll m = totalAdded s.sets := by
    have hsum0 := fillPairs_sumAll hfill (zeroMatrix_dims _)
    rw [sumAll_zeroMatrix, Nat.zero_add] at hsum0
    rw [hsum0, pairsOf_length hwf]
  have hNssum_ne : s'.Nsamples.sum ≠ 0 := by
    rw [hs']
    show (colSums m).sum ≠ 0
    rw [colSums_sum hdims', hsum]
    omega
  constructor
  · refine ⟨1 - (s'.Ncorrect : ℚ) / (s'.Nsamples.sum : ℚ), ?_⟩
    unfold errorAcc
    rw [h, Option.map_some', if_neg hNssum_ne]
  · refine ⟨100 * (s'.Ncorrect : ℚ) / (s'.Nsamples.sum : ℚ), ?_⟩
    unfold percentCorrectAcc
    rw [h, Option.map_some', if_neg hNssum_ne]

namespace ConfusionMatrix

theorem setVals_append (s1 s2 : List (List PyVal × List PyVal)) :
    setVals (s1 ++ s2) = setVals s1 ++ setVals s2 := by
  induction s1 with
  | nil => rfl
  | cons st rest ih => simp [setVals, ih]

/-- When every target/prediction type already matches per index, the
coercion loop is the identity (no `predictions[i] = ...` write happens). -/
theorem coerceAux_aligned {t : List PyVal} {p : PySeq} {i0 : Nat}
    (halign : ∀ j, j < t.length →
      (t.getD j (.int 0)).pyType = (p.getIdx (i0 + j)).pyType) :
    coerceAux t p i0 = .ok p := by
  induction t generalizing i0 with
  | nil => rfl
  | cons t0 ts ih =>
      simp only [coerceAux]
      have h0 : t0.pyType = (p.getIdx i0).pyType := by
        simpa using halign 0 (by simp)
      rw [if_neg (by simpa using h0)]
      apply ih
      intro j hj
      have := halign (j + 1) (by simpa using hj)
      simpa [Nat.add_assoc, Nat.add_comm 1 j] using this

/-- `add` of an already type-aligned pair appends it unchanged. -/
theorem add_aligned {s : ConfusionMatrix} {t p : List PyVal}
    (hlen : t.length = p.length)
    (halign : ∀ i, i < t.length →
      (t.getD i (.int 0)).pyType = (p.getD i (.int 0)).pyType) :
    ConfusionMatrix.add s t (.list p)
      = .ok ({ s with sets := s.sets ++ [(t, p)], computed := false },
             .list p) := by
  unfold ConfusionMatrix.add
  rw [if_neg (by simpa [PySeq.length, PySeq.toList] using hlen)]
  rw [@coerceAux_aligned t (PySeq.list p) 0 ?halign]
  · rfl
  case halign =>
    intro j hj
    simpa [PySeq.getIdx, PySeq.toList] using halign j hj

/-- The `__iadd__` fold over type-aligned operand sets: every `add`
succeeds and appends the set untouched; the computed flag survives only
when there was nothing to add. -/
theorem foldl_add_spec :
    ∀ (l : List (List PyVal × List PyVal)), typeAligned l →
    ∀ a : ConfusionMatrix,
      (l.foldlM (fun s st => (ConfusionMatrix.add s st.1
        (.list st.2)).map Prod.fst) a : Except PyErr ConfusionMatrix)
      = .ok { a with sets := a.sets ++ l,
                     computed := if l.isEmpty then a.computed
                                 else false } := by
  intro l
  induction l with
  | nil =>
      intro _ a
      simp only [List.foldlM_nil, List.isEmpty_nil, if_true,
        List.append_nil]
      rfl
  | cons st rest ih =>
      intro halign a
      obtain ⟨hlen, hal⟩ := halign st (by simp)
      have hstep := @add_aligned a st.1 st.2 hlen hal
      have hrest : typeAligned rest :=
        fun s hs => halign s (by simp [hs])
      have hstep2 : ((ConfusionMatrix.add a st.1 (.list st.2)).map
            Prod.fst : Except PyErr ConfusionMatrix)
          = .ok { a with sets := a.sets ++ [(st.1, st.2)],
                         computed := false } := by
        rw [hstep]
        rfl
      simp only [List.foldlM_cons]
      rw [hstep2]
      have hbind : ((Except.ok { a with
                                 sets := a.sets ++ [(st.1, st.2)],
                                 computed := false } :
              Except PyErr ConfusionMatrix)
            >>= fun a' => rest.foldlM
              (fun s st => (ConfusionMatrix.add s st.1
                (.list st.2)).map Prod.fst) a')
          = rest.foldlM (fun s st => (ConfusionMatrix.add s st.1
              (.list st.2)).map Prod.fst)
            { a with sets := a.sets ++ [(st.1, st.2)],
                     computed := false } := rfl
      rw [hbind, ih hrest]
      have hif : (if rest.isEmpty then false else false) = false := by
        cases rest <;> rfl
      simp [hif, List.append_assoc]

/-- `__iadd__` on type-aligned operand sets concatenates them onto the left
operand. -/
theorem iadd_spec {other : ConfusionMatrix}
    (halign : typeAligned other.sets) (a : ConfusionMatrix) :
    iadd a other = .ok { a with sets := a.sets ++ other.sets,
                                computed := if other.sets.isEmpty
                                            then a.computed else false } :=
  foldl_add_spec other.sets halign a

/-- On a computed state, the stored sets are type-aligned whenever the
pre-compute sets were (compute does not touch them). -/
theorem typeAligned_of_compute {s s' : ConfusionMatrix}
    (h : compute s = some s') (halign : typeAligned s.sets) :
    typeAligned s'.sets := by
  rw [show s'.sets = s.sets from compute_sets h]
  exact halign

theorem countPairIdx_append (labels : List PyVal)
    (ps1 ps2 : List (PyVal × PyVal)) (i j : Nat) :
    countPairIdx labels (ps1 ++ ps2) i j
      = countPairIdx labels ps1 i j + countPairIdx labels ps2 i j :=
  List.countP_append _ _ _

end ConfusionMatrix

open ConfusionMatrix in
/-- Witness for C10: the example matrix holds four samples and both
accessors return ordinary rationals on it. -/
theorem claim10_zero_guard_witness :
    wfLens exampleCM.sets ∧ 0 < totalAdded exampleCM.sets ∧
    ((∃ q, errorAcc exampleCM = some (exampleCM2, PyFloat.val q)) ∧
     (∃ q, percentCorrectAcc exampleCM
        = some (exampleCM2, PyFloat.val q))) :=
  ⟨by unfold wfLens; decide, by decide,
   claim10_zero_guard.2.2.2 exampleCM exampleCM2
     (by unfold wfLens; decide) rfl rfl (by decide)⟩

open ConfusionMatrix in
/-- Claim C5: `m += m` terminates — `__iadd__` iterates over a shallow copy
of the operand's set list, frozen at entry — and exactly doubles: the
stored set list becomes the original concatenated with itself (twice the
length, no more) and every cell of the recomputed matrix is exactly twice
its previous value. -/
theorem claim5_self_merge :
    ∀ s s1 : ConfusionMatrix, typeAligned s.sets → s.computed = false →
      compute s = some s1 →
      ∃ s2, iadd s1 s1 = .ok s2 ∧
        s2.sets = s1.sets ++ s1.sets ∧
        s2.sets.length = 2 * s1.sets.length ∧
        ∃ s3 m m2, compute s2 = some s3 ∧
          s1.matrix = some m ∧ s3.matrix = some m2 ∧
          s3.labels = s1.labels ∧
          (∀ i j, entry m2 i j = 2 * entry m i j) := by
  intro s s1 halign hc h
  have hwf : wfLens s.sets := fun st hst => (halign st hst).1
  have hall := allVals_hashable_of_compute hc hwf h
  obtain ⟨hh, m, hfill, hs1⟩ := compute_elim hc h
  have hsets1 : s1.sets = s.sets := compute_sets h
  have hlabels1 : s1.labels = derivedLabels s.labels s.sets := by rw [hs1]
  have hmatrix1 : s1.matrix = some m := by rw [hs1]
  have hcomp1 : s1.computed = true := by rw [hs1]
  have halign1 : typeAligned s1.sets := by rw [hsets1]; exact halign
  have hiadd := @iadd_spec s1 halign1 s1
  refine ⟨_, hiadd, rfl, by simp [Nat.two_mul], ?_⟩
  cases hsets : s.sets with
  | nil =>
      -- nothing to merge: the state is unchanged and already computed
      have hmz : m = zeroMatrix (derivedLabels s.labels s.sets).length := by
        have hz : fillPairs (derivedLabels s.labels s.sets)
            (zeroMatrix (derivedLabels s.labels s.sets).length)
            (pairsOf s.sets)
            = some (zeroMatrix (derivedLabels s.labels s.sets).length) := by
          rw [hsets]; rfl
        rw [hfill] at hz
        exact Option.some.inj hz
      refine ⟨_, m, m, compute_of_computed ?hcc, hmatrix1, hmatrix1,
        rfl, ?ents⟩
      case hcc =>
        show (if s1.sets.isEmpty then s1.computed else false) = true
        rw [hsets1, hsets]
        simpa using hcomp1
      case ents =>
        intro i j
        rw [hmz, entry_zeroMatrix]
  | cons st0 rest =>
      have hnonempty : s.sets.isEmpty = false := by rw [hsets]; rfl
      -- the doubled state is dirty; its recomputation sees the same labels
      have hall2 : (allVals (derivedLabels s.labels s.sets)
          (s.sets ++ s.sets)).all PyVal.hashable = true := by
        rw [List.all_eq_true]
        intro v hv
        rcases List.mem_append.mp hv with hvL | hvS
        · exact List.all_eq_true.mp hh v hvL
        · rw [setVals_append] at hvS
          have hvS' : v ∈ setVals s.sets := by
            rcases List.mem_append.mp hvS with h1 | h1 <;> exact h1
          exact List.all_eq_true.mp hall v
            (List.mem_append.mpr (Or.inr hvS'))
      have hLnodup := nodup_derivedLabels hall
      have hderived2 : derivedLabels (derivedLabels s.labels s.sets)
          (s.sets ++ s.sets) = derivedLabels s.labels s.sets := by
        rw [derivedLabels_of_hashable hall2]
        rw [setUnionL_append_nodup hLnodup (fun x _ hx => by cases hx)]
        rw [List.nil_append]
        rw [unionSets_noop ?hmem]
        · exact pysort_of_sorted (sorted_derivedLabels s.labels s.sets)
        case hmem =>
          intro x hx
          rw [setVals_append] at hx
          have hx' : x ∈ setVals s.sets := by
            rcases List.mem_append.mp hx with h1 | h1 <;> exact h1
          exact (mem_derivedLabels hall x).mpr
            (List.mem_append.mpr (Or.inr hx'))
      have hfill2 : ∃ m2, fillPairs (derivedLabels s.labels s.sets)
          (zeroMatrix (derivedLabels s.labels s.sets).length)
          (pairsOf (s.sets ++ s.sets)) = some m2 := by
        have := fillPairs_isSome_of_hashable hall2
          (zeroMatrix (derivedLabels (derivedLabels s.labels s.sets)
            (s.sets ++ s.sets)).length)
        rw [hderived2] at this
        exact Option.isSome_iff_exists.mp this
      obtain ⟨m2, hm2⟩ := hfill2
      have hlabels2 : derivedLabels s1.labels (s1.sets ++ s1.sets)
          = derivedLabels s.labels s.sets := by
        rw [hlabels1, hsets1]
        exact hderived2
      have hcompute2 := @compute_eq_some
        { s1 with
          sets := s1.sets ++ s1.sets,
          computed := if s1.sets.isEmpty then s1.computed else false }
        (by show (if s1.sets.isEmpty then s1.computed else false) = false
            rw [hsets1, hnonempty]
            rfl)
        (by show (derivedLabels s1.labels (s1.sets ++ s1.sets)).all
              PyVal.hashable = true
            rw [hlabels2]
            exact hh)
        m2
        (by show fillPairs (derivedLabels s1.labels (s1.sets ++ s1.sets))
              (zeroMatrix (derivedLabels s1.labels
                (s1.sets ++ s1.sets)).length)
              (pairsOf (s1.sets ++ s1.sets)) = some m2
            rw [hlabels2, hsets1]
            exact hm2)
      refine ⟨_, m, m2, hcompute2, hmatrix1, rfl, ?_, ?_⟩
      · show derivedLabels s1.labels (s1.sets ++ s1.sets) = s1.labels
        rw [hlabels2, hlabels1]
      · intro i j
        have he2 := fillPairs_entry hm2 (zeroMatrix_dims _) i j
        have he1 := fillPairs_entry hfill (zeroMatrix_dims _) i j
        rw [entry_zeroMatrix, Nat.zero_add] at he1 he2
        rw [he1, he2, pairsOf_append, countPairIdx_append]
        omega

open ConfusionMatrix in
/-- Witness for C5: self-merging the computed example matrix yields two
stored sets and the recomputed matrix `[[2, 0], [2, 4]]`, each cell twice
`[[1, 0], [1, 2]]`. -/
theorem claim5_self_merge_witness :
    typeAligned exampleCM.sets ∧
    ∃ s2, iadd exampleCM2 exampleCM2 = .ok s2 ∧
      s2.sets = exampleCM2.sets ++ exampleCM2.sets ∧
      s2.sets.length = 2 * exampleCM2.sets.length ∧
      ∃ s3 m m2, compute s2 = some s3 ∧
        exampleCM2.matrix = some m ∧ s3.matrix = some m2 ∧
        s3.labels = exampleCM2.labels ∧
        (∀ i j, entry m2 i j = 2 * entry m i j) :=
  ⟨by unfold typeAligned; decide,
   claim5_self_merge exampleCM exampleCM2
     (by unfold typeAligned; decide) rfl rfl⟩

open ConfusionMatrix in
/-- Claim C6 at its failing input, showing the code-level divergence:
`a + b` does return a matrix holding the concatenation of both operands'
sample sets, but the left operand's own stored list has grown to that same
concatenation — `copy.copy(self)` shares the `__sets` list object with the
copy, so the merge's appends reach `a` itself, violating the claimed frame
property (`a` started with one stored set, and ends with two). -/
theorem claim6_add_mutates_left :
    addOp exampleA exampleB
      = .ok ({ exampleA with sets := [([PyVal.int 1], [PyVal.int 1]),
                                      ([PyVal.int 2], [PyVal.int 2])] },
             { exampleA with sets := [([PyVal.int 1], [PyVal.int 1]),
                                      ([PyVal.int 2], [PyVal.int 2])] }) ∧
    exampleA.sets = [([PyVal.int 1], [PyVal.int 1])] :=
  ⟨rfl, rfl⟩

end Transerror
